import Mathlib

/-!
Verification development for the repository-migration engine of
`aiida/backends/general/migrations/utils.py` and its surrounding callers.

The Python code is shallowly embedded: pure structure-manipulating code
becomes Lean functions, python `dict`s become association lists with
python-dict insertion semantics, fallible code returns `Except PyError`,
and the on-disk legacy filesystem is a finite tree value.  Code of the
repository that is not part of the inspected sources (the virtual
`Repository`/`File` classes of `aiida.repository`) is modelled from the
specification; each such definition is marked `Modelled from the spec:`.
-/

namespace Aiida

/-- The `FileType` enumeration of `aiida.repository.common`. -/
inductive FileType where
  | directory
  | file
deriving DecidableEq

/-- A value held in a `LazyFile`'s `key` slot: either a concrete store key
(a python `str`) or a `disk_objectstore.utils.LazyOpener` deferred content
reference, modelled by the path string it wraps. -/
inductive KeyVal where
  | str (s : String)
  | lazy (ref : String)
deriving DecidableEq

/-- The untyped python argument passed as `key` to the `LazyFile`
constructor: `None`, a `str`, a `LazyOpener`, or any other python value
(`other`), which fails the `isinstance(key, (str, LazyOpener))` check. -/
inductive KeyArg where
  | noneVal
  | str (s : String)
  | lazy (ref : String)
  | other
deriving DecidableEq

/-- Python exceptions that the embedded code can raise. -/
inductive PyError where
  | typeError (msg : String)
  | valueError (msg : String)
  | runtimeError (msg : String)
  | unboundLocalError (msg : String)
  | keyError (msg : String)
  | indexError (msg : String)
  | notADirectoryError (msg : String)
deriving DecidableEq

/-- A JSON-like python value as produced by the metadata serialization:
python dicts (`obj`), strings (store keys), `LazyOpener` objects held
inside dicts before resolution (`lazy`), and `None` (`null`). -/
inductive JVal where
  | null
  | str (s : String)
  | lazy (ref : String)
  | obj (fields : List (String × JVal))

/-- Association-list lookup, the embedding of python `dict.__getitem__`
success cases (first binding wins; python dicts cannot hold duplicate
keys, so on faithfully built inputs there is at most one binding). -/
def alookup {α : Type} : List (String × α) → String → Option α
  | [], _ => none
  | (k, v) :: rest, key => if k = key then some v else alookup rest key

/-- Replace every binding of `k` in place with `v`. -/
def replaceEntry {α : Type} (k : String) (v : α) : List (String × α) → List (String × α)
  | [] => []
  | (a, b) :: rest =>
      if a = k then (k, v) :: replaceEntry k v rest else (a, b) :: replaceEntry k v rest

/-- Python `dict[k] = v`: replace the existing binding in place (keeping
its position) or append a new binding at the end. -/
def dictInsert {α : Type} (m : List (String × α)) (k : String) (v : α) : List (String × α) :=
  if (alookup m k).isSome then replaceEntry k v m else m ++ [(k, v)]

/-! ## The `LazyFile` class (source lines 35-67)

`LazyFile.__init__` re-implements the `File` constructor, additionally
allowing a `LazyOpener` as `key`.  `name` is modelled as a Lean `String`
and `file_type` as `FileType`, so their `isinstance` checks always pass;
the `objects` values are `LFile`s by typing, so that check passes too. -/

/-- An instance of `LazyFile` (a `File` whose key may be a `LazyOpener`). -/
inductive LFile where
  | mk (name : String) (file_type : FileType) (key : Option KeyVal) (objects : List (String × LFile))

def LFile.name : LFile → String
  | .mk n _ _ _ => n

def LFile.fileType : LFile → FileType
  | .mk _ ft _ _ => ft

def LFile.key : LFile → Option KeyVal
  | .mk _ _ k _ => k

def LFile.objects : LFile → List (String × LFile)
  | .mk _ _ _ os => os

/-- Whether the python value passed as `key` satisfies
`isinstance(key, (str, LazyOpener))`. -/
def KeyArg.isValidType : KeyArg → Bool
  | .noneVal => true
  | .str _ => true
  | .lazy _ => true
  | .other => false

/-- The stored key resulting from a well-typed `key` argument. -/
def KeyArg.toVal : KeyArg → Option KeyVal
  | .noneVal => none
  | .str s => some (.str s)
  | .lazy r => some (.lazy r)
  | .other => none

/-- `LazyFile.__init__` (source lines 38-67).  The checks appear in source
order: the `key` type check, then the two `ValueError` invariant checks,
then the field assignments with `objects or {}`. -/
def LazyFile.construct (name : String) (file_type : FileType) (key : KeyArg)
    (objects : Option (List (String × LFile))) : Except PyError LFile :=
  if key ≠ KeyArg.noneVal ∧ key.isValidType = false then
    .error (.typeError "key should be None or a string.")
  else if file_type = FileType.directory ∧ key ≠ KeyArg.noneVal then
    .error (.valueError "an object of type FileType.DIRECTORY cannot define a key.")
  else if file_type = FileType.file ∧ objects.isSome = true then
    .error (.valueError "an object of type FileType.FILE cannot define any objects.")
  else
    .ok (.mk name file_type key.toVal (objects.getD []))

/-! ## The legacy on-disk filesystem

A directory tree as found under the legacy repository basepath.  A file
carries an opaque reference string standing for its absolute real path
(the value wrapped by `LazyOpener`); directory entries are kept in the
order `Path.iterdir` yields them. -/

/-- A node of the legacy on-disk filesystem. -/
inductive FSTree where
  | file (ref : String)
  | dir (entries : List (String × FSTree))

/- Well-formedness of an entry list as a real filesystem guarantees it:
sibling names are distinct at every level. -/
mutual

def FSTree.wf : FSTree → Bool
  | .file _ => true
  | .dir es => wfEntries es

def wfEntries : List (String × FSTree) → Bool
  | [] => true
  | (n, t) :: rest => rest.all (fun p => p.1 != n) && t.wf && wfEntries rest

end

/-- `Path.iterdir` on a node: lists a directory, raises on a file. -/
def FSTree.iterdir : FSTree → Except PyError (List (String × FSTree))
  | .dir es => .ok es
  | .file _ => .error (.notADirectoryError "Not a directory")

/-! ## The shard-name regular expressions (source lines 31-32)

`REGEX_SHARD_SUB_LEVEL = ^[0-9a-f]{2}$` and
`REGEX_SHARD_FINAL_LEVEL = ^[0-9a-f-]{32}$`, used via `re.match`.
`re.match` anchors at the start; the trailing `$` matches at the end of
the string or just before one final newline, which the embedding keeps. -/

/-- Membership in the character class `[0-9a-f]`. -/
def isHexLower (c : Char) : Bool :=
  ('0' ≤ c && c ≤ '9') || ('a' ≤ c && c ≤ 'f')

/-- Membership in the character class `[0-9a-f-]`. -/
def isHexLowerDash (c : Char) : Bool :=
  isHexLower c || c = '-'

/-- `re.match` against a pattern of shape `^C{n}$` for a character class
`C`: the whole string, minus at most one trailing newline, is exactly
`n` characters of the class. -/
def matchesAnchored (p : Char → Bool) (n : Nat) (s : String) : Bool :=
  let cs := s.toList
  let core := if cs.getLast? = some '\n' then cs.dropLast else cs
  core.length = n && core.all p

/-- `REGEX_SHARD_SUB_LEVEL.match name` (source line 31). -/
def matchesShardSub (s : String) : Bool :=
  matchesAnchored isHexLower 2 s

/-- `REGEX_SHARD_FINAL_LEVEL.match name` (source line 32). -/
def matchesShardFinal (s : String) : Bool :=
  matchesAnchored isHexLowerDash 32 s

/-! ## `get_node_repository_dirpaths` (source lines 161-198)

The scan threads three pieces of python state: the `mapping` dict, the
warnings emitted through `echo.echo_warning`, and the local variable
`path`, which the source only assigns inside the `if`/`elif` branches.
In the `else` branch the source emits a warning but does *not* skip the
identity: the trailing `mapping[uuid] = path` still runs, reading the
stale `path` of a previous iteration (an `UnboundLocalError` when no
iteration assigned it yet).  Mapping values are modelled by the subtree
the stored filepath points at. -/

structure ScanState where
  mapping : List (String × FSTree)
  warnings : List String
  pathVar : Option FSTree

/-- The warning text of source lines 192-194, keyed by the offending
directory path. -/
def warnMissingSub (s1 s2 s3 : String) : String :=
  "skipping node repository folder " ++ s1 ++ "/" ++ s2 ++ "/" ++ s3 ++
    " as it does not contain path nor raw_input"

/-- The body of the innermost loop, after the final-level regex matched
(source lines 183-196). -/
def scanIdentity (s1 s2 s3 : String) (st : ScanState) (tree : FSTree) :
    Except PyError ScanState := do
  let uuid := s1 ++ s2 ++ s3
  let entries ← tree.iterdir
  match alookup entries "path" with
  | some p =>
      .ok ⟨dictInsert st.mapping uuid p, st.warnings, some p⟩
  | none =>
      match alookup entries "raw_input" with
      | some p =>
          .ok ⟨dictInsert st.mapping uuid p, st.warnings, some p⟩
      | none =>
          let ws := st.warnings ++ [warnMissingSub s1 s2 s3]
          match st.pathVar with
          | some stale => .ok ⟨dictInsert st.mapping uuid stale, ws, some stale⟩
          | none => .error (.unboundLocalError "local variable path referenced before assignment")

/-- The loop over `shard_two.iterdir()` entries at the final level
(source lines 178-196). -/
def scanLevel3 (s1 s2 : String) (st : ScanState) :
    List (String × FSTree) → Except PyError ScanState
  | [] => .ok st
  | (name, t) :: rest => do
      if matchesShardFinal name then
        let st' ← scanIdentity s1 s2 name st t
        scanLevel3 s1 s2 st' rest
      else
        scanLevel3 s1 s2 st rest

/-- The loop over `shard_one.iterdir()` entries (source lines 173-196). -/
def scanLevel2 (s1 : String) (st : ScanState) :
    List (String × FSTree) → Except PyError ScanState
  | [] => .ok st
  | (name, t) :: rest => do
      if matchesShardSub name then
        let entries ← t.iterdir
        let st' ← scanLevel3 s1 name st entries
        scanLevel2 s1 st' rest
      else
        scanLevel2 s1 st rest

/-- The loop over `basepath.iterdir()` entries (source lines 168-196). -/
def scanLevel1 (st : ScanState) :
    List (String × FSTree) → Except PyError ScanState
  | [] => .ok st
  | (name, t) :: rest => do
      if matchesShardSub name then
        let entries ← t.iterdir
        let st' ← scanLevel2 name st entries
        scanLevel1 st' rest
      else
        scanLevel1 st rest

/-- `get_node_repository_dirpaths(basepath)` (source lines 161-198),
taking the listing of the basepath directory as input. -/
def get_node_repository_dirpaths (basepathEntries : List (String × FSTree)) :
    Except PyError ScanState :=
  scanLevel1 ⟨[], [], none⟩ basepathEntries

/-! ## Building the virtual tree for one entity

`MigrationRepository.put_object_from_tree` lives in
`aiida/repository/repository.py`, which is not among the inspected
sources; it is modelled from the spec (section 4.2 `insert_tree`).  The
key assigned to each file leaf comes from
`NoopRepositoryBackend.put_object_from_filelike` (source lines 79-86),
which returns `LazyOpener(handle.name)`. -/

/-- `NoopRepositoryBackend.put_object_from_filelike` (source lines
79-86): wrap the file's real path in a `LazyOpener`. -/
def noopPutObject (ref : String) : KeyVal :=
  .lazy ref

/- Modelled from the spec: `Repository.put_object_from_tree` (section
4.2 `insert_tree`) "recursively copies names and directory structure of
an external directory tree into the virtual tree, creating one File
leaf per regular file found (assigning it a deferred content reference
bound to that file's real path) and one Directory node per real
subdirectory, preserving relative paths exactly". -/
mutual

def putObjectFromTree : FSTree → String → LFile
  | .file ref, name => .mk name .file (some (noopPutObject ref)) []
  | .dir es, name => .mk name .directory none (putObjectsFromEntries es)

def putObjectsFromEntries : List (String × FSTree) → List (String × LFile)
  | [] => []
  | (n, t) :: rest => (n, putObjectFromTree t n) :: putObjectsFromEntries rest

end

/-- The repository root after `put_object_from_tree(node_dirpath)`:
an unnamed root directory holding the inserted entries.  Walking a
non-directory path inserts nothing (`os.walk` of a non-directory yields
no entries), leaving the root empty. -/
def putTreeRoot : FSTree → LFile
  | .dir es => .mk "" .directory none (putObjectsFromEntries es)
  | .file _ => .mk "" .directory none []

/-! ## Serialization to a metadata document -/

/-- A stored key rendered inside a document (`file_object.key`). -/
def keyToJVal : Option KeyVal → JVal
  | none => .null
  | some (.str s) => .str s
  | some (.lazy r) => .lazy r

/- Modelled from the spec: `File.serialize` (`aiida/repository/common.py`
is not among the inspected sources); section 3 gives the document
grammar: a directory with children is an object with single field "o"
holding the children documents, an empty directory is the empty object,
and a file is an object with single field "k" holding the key. -/
mutual

def LFile.serialize : LFile → JVal
  | .mk _ .directory _ objects =>
      if objects.isEmpty then .obj []
      else .obj [("o", .obj (serializeEntries objects))]
  | .mk _ .file key _ => .obj [("k", keyToJVal key)]

def serializeEntries : List (String × LFile) → List (String × JVal)
  | [] => []
  | (n, f) :: rest => (n, f.serialize) :: serializeEntries rest

end

/-- `serialize_repository(repository)` (source lines 201-213): serialize
the repository's root `File` object. -/
def serialize_repository (root : LFile) : JVal :=
  match root with
  | .mk _ .directory _ objects =>
      if objects.isEmpty then .obj []
      else .obj [("o", .obj (serializeEntries objects))]
  | .mk _ .file key _ => .obj [("k", keyToJVal key)]

/-! ## Walking the virtual tree -/

/-- The relative paths of the file children of one directory listing, in
listing order (the `filenames` of one `walk` yield). -/
def filesAt (pre : List String) (objects : List (String × LFile)) : List (List String) :=
  objects.filterMap fun p =>
    match p.2 with
    | .mk _ .file _ _ => some (pre ++ [p.1])
    | .mk _ .directory _ _ => none

/- Modelled from the spec: `Repository.walk` (section 4.2) "produces a
lazy sequence of (directory_path, filenames) pairs, depth-first, one
entry per directory in the tree including empty ones, analogous to a
filesystem walk".  `walkCollect` returns, in that yield order, the full
relative path of every file encountered, which is exactly what the
migration loop (source lines 138-141) extracts from the walk. -/
mutual

def walkCollect (pre : List String) : LFile → List (List String)
  | .mk _ .file _ _ => []
  | .mk _ .directory _ objects => filesAt pre objects ++ dirsWalk pre objects

def dirsWalk (pre : List String) : List (String × LFile) → List (List String)
  | [] => []
  | (n, f) :: rest => walkCollect (pre ++ [n]) f ++ dirsWalk pre rest

end

/-! ## Reference order and path lookup on the source tree

`dfsFileRefs` names, on the on-disk tree itself, the list of deferred
content references in entity-internal walk order: the files of a
directory in listing order, then the files of each subdirectory,
depth-first.  `pathRef` looks up the reference of one relative path. -/

mutual

def dfsFileRefs : FSTree → List String
  | .file _ => []
  | .dir es => fileRefsOf es ++ dirRefsOf es

def fileRefsOf : List (String × FSTree) → List String
  | [] => []
  | (_, .file r) :: rest => r :: fileRefsOf rest
  | (_, .dir _) :: rest => fileRefsOf rest

def dirRefsOf : List (String × FSTree) → List String
  | [] => []
  | (_, .file _) :: rest => dirRefsOf rest
  | (_, .dir es) :: rest => dfsFileRefs (.dir es) ++ dirRefsOf rest

end

/-- The deferred reference reachable from an entry list by descending a
relative path: the path must name directories at every component except
the last, and a file at the last. -/
def pathRef : List (String × FSTree) → List String → Option String
  | _, [] => none
  | es, n :: rest =>
      match alookup es n, rest with
      | some (.file r), [] => some r
      | some (.dir es'), _ :: _ => pathRef es' rest
      | _, _ => none

/-! ## Stream extraction from a metadata document (source line 142)

`streams.append(functools.reduce(lambda objects, part:
objects['o'].get(part), parts, metadata)['k'])`: starting from the
metadata document, each reduction step indexes `['o']` strictly and then
uses `dict.get(part)` (which yields `None` on a missing name); the final
`['k']` indexes strictly. -/

/-- Strict python dict indexing `value[field]`. -/
def jIndex (j : JVal) (field : String) : Except PyError JVal :=
  match j with
  | .obj fields =>
      match alookup fields field with
      | some v => .ok v
      | none => .error (.keyError field)
  | _ => .error (.typeError "object is not subscriptable")

/-- Python `value.get(field)`: `None` when the name is missing, an error
when the receiver is not a dict. -/
def jDictGet (j : JVal) (field : String) : Except PyError JVal :=
  match j with
  | .obj fields => .ok ((alookup fields field).getD .null)
  | _ => .error (.typeError "object has no attribute get")

/-- One step of the `functools.reduce` lambda:
`objects['o'].get(part)`. -/
def reduceStep (acc : JVal) (part : String) : Except PyError JVal :=
  do jDictGet (← jIndex acc "o") part

/-- `functools.reduce(step, parts, metadata)`. -/
def reduceGet (acc : JVal) : List String → Except PyError JVal
  | [] => .ok acc
  | p :: rest => do reduceGet (← reduceStep acc p) rest

/-- The full extraction of source line 142: reduce, then index `['k']`. -/
def extractStream (metadata : JVal) (parts : List String) : Except PyError JVal :=
  do jIndex (← reduceGet metadata parts) "k"

/-! ## Regrouping (source lines 149-156)

The loop `file_object = repository_metadata['o']; for part in parts:
file_object = file_object[part]['o']; file_object[filename]['k'] =
hashkey` performs, on the document, the indexing chain
`['o'] [p1] ['o'] [p2] ... ['o'] [filename]` followed by assignment to
the field `'k'` of the node reached.  `navUpdate` performs the same
chain recursively, grouping each `['o']` with the component that
follows it, and rebuilds the document along the descent path — the
functional rendering of the in-place dict mutation. -/

/-- Python dict assignment `fields[key] = v` inside a document node
(the same `dict.__setitem__` semantics as `dictInsert`). -/
def setFieldVal (fields : List (String × JVal)) (key : String) (v : JVal) :
    List (String × JVal) :=
  dictInsert fields key v

/-- Descend `['o'][part]` for every part of the path, then assign
`['k'] = hashkey` on the node reached. -/
def navUpdate (doc : JVal) : List String → String → Except PyError JVal
  | [], hashkey =>
      match doc with
      | .obj fields => .ok (.obj (setFieldVal fields "k" (.str hashkey)))
      | _ => .error (.typeError "object does not support item assignment")
  | part :: rest, hashkey =>
      match doc with
      | .obj fields =>
          match alookup fields "o" with
          | some (.obj children) =>
              match alookup children part with
              | some child => do
                  let child' ← navUpdate child rest hashkey
                  .ok (.obj (setFieldVal fields "o" (.obj (setFieldVal children part child'))))
              | none => .error (.keyError part)
          | some _ => .error (.typeError "object is not subscriptable")
          | none => .error (.keyError "o")
      | _ => .error (.typeError "object is not subscriptable")

/-- One iteration of the regroup loop on one document:
`filename = parts.pop()` demands a non-empty path, then the chain of
source lines 153-156 runs (`navUpdate` with the full part list,
filename included, realises exactly that chain). -/
def regroupOne (doc : JVal) (parts : List String) (hashkey : String) :
    Except PyError JVal :=
  match parts with
  | [] => .error (.indexError "pop from empty list")
  | _ :: _ => navUpdate doc parts hashkey

/-- The regroup loop (source lines 150-156) over
`zip(hashkeys, filepaths)`: look the entity's document up, mutate it
along the path, and store it back (in-place mutation of the dict held
in `mapping_metadata`). -/
def regroupAll (m : List (String × JVal)) :
    List (String × (String × List String)) → Except PyError (List (String × JVal))
  | [] => .ok m
  | (hashkey, (uuid, parts)) :: rest => do
      match alookup m uuid with
      | none => .error (.keyError uuid)
      | some doc => do
          let doc' ← regroupOne doc parts hashkey
          regroupAll (dictInsert m uuid doc') rest

/-! ## The per-entity build loop (source lines 130-145) -/

structure BuildState where
  filepaths : List (String × List String)
  streams : List JVal
  mappingMetadata : List (String × JVal)

/-- Extract the stream of every walked path from one entity's metadata
document, in walk order. -/
def collectStreams (metadata : JVal) : List (List String) → Except PyError (List JVal)
  | [] => .ok []
  | p :: rest => do
      let s ← extractStream metadata p
      let srest ← collectStreams metadata rest
      .ok (s :: srest)

/-- The body of the per-entity loop (source lines 134-145): build the
virtual tree, serialize it, record the document, walk the tree and
append every (uuid, parts) pair and its extracted stream, then reset
the repository. -/
def buildStep (st : BuildState) (uuid : String) (tree : FSTree) :
    Except PyError BuildState := do
  let root := putTreeRoot tree
  let metadata := serialize_repository root
  let paths := walkCollect [] root
  let streams ← collectStreams metadata paths
  .ok ⟨st.filepaths ++ paths.map (fun p => (uuid, p)),
       st.streams ++ streams,
       dictInsert st.mappingMetadata uuid metadata⟩

/-- The per-entity loop over the scanned mapping, in discovery order. -/
def buildPhase (st : BuildState) : List (String × FSTree) → Except PyError BuildState
  | [] => .ok st
  | (uuid, tree) :: rest => do
      buildPhase (← buildStep st uuid tree) rest

/-! ## `migrate_legacy_repository` (source lines 97-158) -/

/-- A recorded call to `container.add_streamed_objects_to_pack`. -/
structure PackCall where
  streams : List JVal
  compress : Bool
  openStreams : Bool

/-- The observable outcome of a completed run: the python return value
(`None` after the nothing-to-migrate early return, or the metadata
mapping), the warnings echoed, and the pack-store calls performed. -/
structure MigrateResult where
  returned : Option (List (String × JVal))
  warnings : List String
  packCalls : List PackCall

/-- `migrate_legacy_repository` (source lines 97-158).  Inputs: whether
`container.is_initialised` holds at the target path, the listing of the
legacy basepath (`none` when `basepath.is_dir()` is false), and the
behavior of `container.add_streamed_objects_to_pack` as a function from
the stream list to the returned hash keys. -/
def migrate_legacy_repository (containerInitialised : Bool)
    (basepath : Option (List (String × FSTree)))
    (pack : List JVal → List String) : Except PyError MigrateResult := do
  if !containerInitialised then
    throw (.runtimeError "the container already exists.")
  match basepath with
  | none =>
      .ok ⟨none, ["could not find the repository basepath: nothing to migrate"], []⟩
  | some basepathEntries => do
      let scan ← get_node_repository_dirpaths basepathEntries
      let built ← buildPhase ⟨[], [], []⟩ scan.mapping
      let hashkeys := pack built.streams
      let final ← regroupAll built.mappingMetadata (List.zip hashkeys built.filepaths)
      .ok ⟨some final, scan.warnings, [⟨built.streams, true, true⟩]⟩

/-! ## Observation: reading the key stored at a relative path

`readK` is a statement-side observation function: it follows the same
`['o'][part]` descent as the regroup navigation and returns the value of
the `'k'` field of the node reached, if any. -/

/-- The children dict of a document node: the value of its `'o'` field,
when that value is a dict. -/
def jChildren (doc : JVal) : Option (List (String × JVal)) :=
  match doc with
  | .obj fields =>
      match alookup fields "o" with
      | some (.obj children) => some children
      | _ => none
  | _ => none

/-- The value of the `'k'` field of a document node. -/
def jKField (doc : JVal) : Option JVal :=
  match doc with
  | .obj fields => alookup fields "k"
  | _ => none

/-- Read the value of `'k'` at the node reached by descending
`['o'][part]` for every part of the path. -/
def readK (doc : JVal) : List String → Option JVal
  | [] => jKField doc
  | part :: rest =>
      (jChildren doc).bind fun children =>
        (alookup children part).bind fun child => readK child rest

/-- Read the key stored for a tagged path inside a metadata mapping. -/
def optRead (m : List (String × JVal)) (e : String × List String) : Option JVal :=
  (alookup m e.1).bind (fun doc => readK doc e.2)

/-! ## Lemmas about association lists with python-dict semantics -/

theorem alookup_map_entry {α β : Type} (f : String → α → β) (k : String) :
    ∀ m : List (String × α),
      alookup (m.map (fun p => (p.1, f p.1 p.2))) k = (alookup m k).map (f k)
  | [] => rfl
  | (a, b) :: rest => by
      simp only [List.map_cons, alookup]
      by_cases h : a = k
      · subst h; simp
      · simp [h, alookup_map_entry f k rest]

theorem alookup_eq_none_iff {α : Type} (k : String) :
    ∀ m : List (String × α), alookup m k = none ↔ k ∉ m.map Prod.fst
  | [] => by simp [alookup]
  | (a, b) :: rest => by
      simp only [alookup, List.map_cons, List.mem_cons]
      by_cases h : a = k
      · subst h; simp
      · simpa [h, Ne.symm h] using alookup_eq_none_iff k rest

theorem alookup_replaceEntry {α : Type} (k k' : String) (v : α) :
    ∀ m : List (String × α),
      alookup (replaceEntry k v m) k' =
        if k = k' then (if (alookup m k).isSome then some v else none) else alookup m k'
  | [] => by by_cases h : k = k' <;> simp [replaceEntry, alookup, h]
  | (a1, a2) :: rest => by
      by_cases h : a1 = k
      · subst h
        by_cases h' : a1 = k'
        · subst h'
          simp [replaceEntry, alookup]
        · simp [replaceEntry, alookup, h', Ne.symm h', alookup_replaceEntry a1 k' v rest]
      · by_cases h' : a1 = k'
        · subst h'
          have hkk : ¬k = a1 := fun hh => h hh.symm
          simp [replaceEntry, alookup, h, hkk, alookup_replaceEntry k a1 v rest]
        · simp [replaceEntry, h, alookup, h', alookup_replaceEntry k k' v rest]

theorem alookup_append_single {α : Type} (k k' : String) (v : α) :
    ∀ m : List (String × α),
      alookup (m ++ [(k, v)]) k' =
        match alookup m k' with
        | some w => some w
        | none => if k = k' then some v else none
  | [] => by simp [alookup]
  | (a1, a2) :: rest => by
      by_cases h : a1 = k'
      · simp [alookup, h]
      · simp only [List.cons_append, alookup, if_neg h]
        exact alookup_append_single k k' v rest

theorem alookup_dictInsert_self {α : Type} (k : String) (v : α)
    (m : List (String × α)) : alookup (dictInsert m k v) k = some v := by
  unfold dictInsert
  by_cases h : (alookup m k).isSome
  · rw [if_pos h, alookup_replaceEntry k k v, if_pos rfl, if_pos h]
  · rw [if_neg h, alookup_append_single k k v]
    cases hv : alookup m k with
    | none => simp
    | some w => rw [hv] at h; simp at h

theorem alookup_dictInsert_other {α : Type} (k k' : String) (v : α) (hne : k' ≠ k)
    (m : List (String × α)) : alookup (dictInsert m k v) k' = alookup m k' := by
  have hkk : ¬k = k' := fun hh => hne hh.symm
  unfold dictInsert
  by_cases h : (alookup m k).isSome
  · rw [if_pos h, alookup_replaceEntry k k' v, if_neg hkk]
  · rw [if_neg h, alookup_append_single k k' v]
    cases hv : alookup m k' with
    | none => simp [hkk]
    | some w => simp

theorem replaceEntry_map_fst {α : Type} (k : String) (v : α) :
    ∀ m : List (String × α), (replaceEntry k v m).map Prod.fst = m.map Prod.fst
  | [] => rfl
  | (a1, a2) :: rest => by
      by_cases h : a1 = k
      · subst h
        simp [replaceEntry, replaceEntry_map_fst a1 v rest]
      · simp [replaceEntry, h, replaceEntry_map_fst k v rest]

theorem dictInsert_map_fst_present {α : Type} (k : String) (v : α)
    (m : List (String × α)) (h : (alookup m k).isSome) :
    (dictInsert m k v).map Prod.fst = m.map Prod.fst := by
  unfold dictInsert
  rw [if_pos h, replaceEntry_map_fst]

theorem dictInsert_map_fst_absent {α : Type} (k : String) (v : α)
    (m : List (String × α)) (h : alookup m k = none) :
    (dictInsert m k v).map Prod.fst = m.map Prod.fst ++ [k] := by
  unfold dictInsert
  rw [if_neg (by simp [h]), List.map_append]
  rfl

theorem nodup_dictInsert {α : Type} (k : String) (v : α)
    (m : List (String × α)) (h : (m.map Prod.fst).Nodup) :
    ((dictInsert m k v).map Prod.fst).Nodup := by
  by_cases hp : (alookup m k).isSome
  · rwa [dictInsert_map_fst_present k v m hp]
  · have hn : alookup m k = none := by
      cases hv : alookup m k with
      | none => rfl
      | some _ => simp [hv] at hp
    rw [dictInsert_map_fst_absent k v m hn]
    have hk : k ∉ m.map Prod.fst := (alookup_eq_none_iff k m).mp hn
    refine List.Nodup.append h (List.nodup_singleton k) ?_
    intro a ha hb
    rw [List.mem_singleton] at hb
    exact hk (hb ▸ ha)

theorem dictInsert_of_absent {α : Type} (k : String) (v : α)
    (m : List (String × α)) (h : alookup m k = none) :
    dictInsert m k v = m ++ [(k, v)] := by
  unfold dictInsert
  rw [if_neg (by simp [h])]

/-! ## Navigation lemmas: the regroup update against the observation -/

theorem alookup_setFieldVal_self (fields : List (String × JVal)) (k : String) (v : JVal) :
    alookup (setFieldVal fields k v) k = some v :=
  alookup_dictInsert_self k v fields

theorem alookup_setFieldVal_other (fields : List (String × JVal)) (k k' : String)
    (v : JVal) (hne : k' ≠ k) : alookup (setFieldVal fields k v) k' = alookup fields k' :=
  alookup_dictInsert_other k k' v hne fields

theorem except_map_eq_error {α β γ : Type} (f : α → β) (e : γ) :
    (Except.error e : Except γ α).map f = Except.error e := rfl

theorem except_map_eq_ok {α β γ : Type} (f : α → β) (a : α) :
    (Except.ok a : Except γ α).map f = Except.ok (f a) := rfl

theorem jChildren_eq_some {doc : JVal} {children : List (String × JVal)}
    (h : jChildren doc = some children) :
    ∃ fields, doc = .obj fields ∧ alookup fields "o" = some (.obj children) := by
  cases doc with
  | obj fields =>
      simp only [jChildren] at h
      refine ⟨fields, rfl, ?_⟩
      cases ho : alookup fields "o" with
      | none =>
          simp only [ho] at h
          exact Option.noConfusion h
      | some w =>
          simp only [ho] at h
          cases w with
          | obj c =>
              injection h with h2
              subst h2
              rfl
          | null => exact Option.noConfusion h
          | str s => exact Option.noConfusion h
          | lazy r => exact Option.noConfusion h
  | null => exact Option.noConfusion h
  | str s => exact Option.noConfusion h
  | lazy r => exact Option.noConfusion h

theorem jKField_eq_some {doc v : JVal} (h : jKField doc = some v) :
    ∃ fields, doc = .obj fields ∧ alookup fields "k" = some v := by
  cases doc with
  | obj fields => exact ⟨fields, rfl, h⟩
  | null => exact Option.noConfusion h
  | str s => exact Option.noConfusion h
  | lazy r => exact Option.noConfusion h

/-- Computation rule for the regroup update on a readable step. -/
theorem navUpdate_cons_eq (fields children : List (String × JVal)) (part : String)
    (rest : List String) (hk : String) (child : JVal)
    (ho : alookup fields "o" = some (.obj children))
    (hc : alookup children part = some child) :
    navUpdate (.obj fields) (part :: rest) hk =
      (navUpdate child rest hk).map fun child2 =>
        .obj (setFieldVal fields "o" (.obj (setFieldVal children part child2))) := by
  simp only [navUpdate, ho, hc]
  cases navUpdate child rest hk <;> rfl

/-- The regroup update succeeds wherever the observation reads a key. -/
theorem navUpdate_ok_of_readK (hk : String) :
    ∀ (p : List String) (doc v : JVal), readK doc p = some v →
      ∃ doc2, navUpdate doc p hk = .ok doc2
  | [], doc, v, h => by
      obtain ⟨fields, rfl, _⟩ := jKField_eq_some (h : jKField doc = some v)
      exact ⟨_, rfl⟩
  | part :: rest, doc, v, h => by
      simp only [readK] at h
      cases hch : jChildren doc with
      | none =>
          simp only [hch, Option.none_bind] at h
          exact Option.noConfusion h
      | some children =>
          simp only [hch, Option.some_bind] at h
          cases hc : alookup children part with
          | none =>
              simp only [hc, Option.none_bind] at h
              exact Option.noConfusion h
          | some child =>
              simp only [hc, Option.some_bind] at h
              obtain ⟨child2, hrec⟩ := navUpdate_ok_of_readK hk rest child v h
              obtain ⟨fields, rfl, ho⟩ := jChildren_eq_some hch
              rw [navUpdate_cons_eq fields children part rest hk child ho hc, hrec]
              exact ⟨_, rfl⟩

/-- After the regroup update, the observation at the updated path reads
the assigned hash key. -/
theorem readK_navUpdate_self (hk : String) :
    ∀ (p : List String) (doc doc2 : JVal), navUpdate doc p hk = .ok doc2 →
      readK doc2 p = some (.str hk)
  | [], doc, doc2, h => by
      cases doc with
      | obj fields =>
          simp only [navUpdate] at h
          injection h with h2
          subst h2
          simp [readK, jKField, alookup_setFieldVal_self]
      | null => exact Except.noConfusion h
      | str s => exact Except.noConfusion h
      | lazy r => exact Except.noConfusion h
  | part :: rest, doc, doc2, h => by
      cases doc with
      | obj fields =>
          simp only [navUpdate] at h
          cases ho : alookup fields "o" with
          | none =>
              simp only [ho] at h
              exact Except.noConfusion h
          | some w =>
              simp only [ho] at h
              cases w with
              | obj children =>
                  cases hc : alookup children part with
                  | none =>
                      simp only [hc] at h
                      exact Except.noConfusion h
                  | some child =>
                      simp only [hc] at h
                      rw [show (do
                          let child' ← navUpdate child rest hk
                          Except.ok (JVal.obj (setFieldVal fields "o"
                            (JVal.obj (setFieldVal children part child'))))) =
                          (navUpdate child rest hk).map (fun child2 =>
                            JVal.obj (setFieldVal fields "o"
                              (JVal.obj (setFieldVal children part child2)))) from by
                        cases navUpdate child rest hk <;> rfl] at h
                      cases hrec : navUpdate child rest hk with
                      | error e => rw [hrec, except_map_eq_error] at h; exact Except.noConfusion h
                      | ok child2 =>
                          rw [hrec, except_map_eq_ok] at h
                          injection h with h2
                          subst h2
                          have h1 : jChildren (JVal.obj (setFieldVal fields "o"
                              (.obj (setFieldVal children part child2)))) =
                              some (setFieldVal children part child2) := by
                            simp [jChildren, alookup_setFieldVal_self]
                          simp only [readK, h1, Option.some_bind,
                            alookup_setFieldVal_self, Option.some_bind]
                          exact readK_navUpdate_self hk rest child child2 hrec
              | null => exact Except.noConfusion h
              | str s => exact Except.noConfusion h
              | lazy r => exact Except.noConfusion h
      | null => exact Except.noConfusion h
      | str s => exact Except.noConfusion h
      | lazy r => exact Except.noConfusion h

/-- The regroup update changes the observation at no other path. -/
theorem readK_navUpdate_other (hk : String) :
    ∀ (p : List String) (doc doc2 : JVal), navUpdate doc p hk = .ok doc2 →
      ∀ q : List String, q ≠ p → readK doc2 q = readK doc q
  | [], doc, doc2, h, q, hq => by
      cases doc with
      | obj fields =>
          simp only [navUpdate] at h
          injection h with h2
          subst h2
          cases q with
          | nil => exact absurd rfl hq
          | cons b qs =>
              have h1 : jChildren (JVal.obj (setFieldVal fields "k" (.str hk))) =
                  jChildren (JVal.obj fields) := by
                simp [jChildren, alookup_setFieldVal_other fields "k" "o" _ (by decide)]
              simp [readK, h1]
      | null => exact Except.noConfusion h
      | str s => exact Except.noConfusion h
      | lazy r => exact Except.noConfusion h
  | part :: rest, doc, doc2, h, q, hq => by
      cases doc with
      | obj fields =>
          simp only [navUpdate] at h
          cases ho : alookup fields "o" with
          | none =>
              simp only [ho] at h
              exact Except.noConfusion h
          | some w =>
              simp only [ho] at h
              cases w with
              | obj children =>
                  cases hc : alookup children part with
                  | none =>
                      simp only [hc] at h
                      exact Except.noConfusion h
                  | some child =>
                      simp only [hc] at h
                      rw [show (do
                          let child' ← navUpdate child rest hk
                          Except.ok (JVal.obj (setFieldVal fields "o"
                            (JVal.obj (setFieldVal children part child'))))) =
                          (navUpdate child rest hk).map (fun child2 =>
                            JVal.obj (setFieldVal fields "o"
                              (JVal.obj (setFieldVal children part child2)))) from by
                        cases navUpdate child rest hk <;> rfl] at h
                      cases hrec : navUpdate child rest hk with
                      | error e => rw [hrec, except_map_eq_error] at h; exact Except.noConfusion h
                      | ok child2 =>
                          rw [hrec, except_map_eq_ok] at h
                          injection h with h2
                          subst h2
                          have h1 : jChildren (JVal.obj (setFieldVal fields "o"
                              (.obj (setFieldVal children part child2)))) =
                              some (setFieldVal children part child2) := by
                            simp [jChildren, alookup_setFieldVal_self]
                          have h0 : jChildren (JVal.obj fields) = some children := by
                            simp [jChildren, ho]
                          cases q with
                          | nil =>
                              have hkf : jKField (JVal.obj (setFieldVal fields "o"
                                  (.obj (setFieldVal children part child2)))) =
                                  jKField (JVal.obj fields) := by
                                simp [jKField, alookup_setFieldVal_other fields "o" "k" _ (by decide)]
                              simp [readK, hkf]
                          | cons b qs =>
                              by_cases hb : b = part
                              · subst hb
                                have hqs : qs ≠ rest := by
                                  intro hh; exact hq (by rw [hh])
                                simp only [readK, h1, h0, Option.some_bind,
                                  alookup_setFieldVal_self, hc, Option.some_bind]
                                exact readK_navUpdate_other hk rest child child2 hrec qs hqs
                              · simp only [readK, h1, h0, Option.some_bind,
                                  alookup_setFieldVal_other children part b child2 hb]
              | null => exact Except.noConfusion h
              | str s => exact Except.noConfusion h
              | lazy r => exact Except.noConfusion h
      | null => exact Except.noConfusion h
      | str s => exact Except.noConfusion h
      | lazy r => exact Except.noConfusion h

/-! ## The regroup loop: success and effect -/

/-- Master lemma for the regroup loop: if every zipped pair addresses a
readable file node of the current mapping, along pairwise-distinct
(identity, path) pairs with non-empty paths, then the loop succeeds, the
addressed nodes afterwards read the assigned keys, and every other path
and every untouched identity is unchanged. -/
theorem regroupAll_master :
    ∀ (z : List (String × (String × List String))) (m : List (String × JVal)),
      (∀ e ∈ z, ∃ v, optRead m e.2 = some v) →
      (z.map Prod.snd).Nodup →
      (∀ e ∈ z, e.2.2 ≠ ([] : List String)) →
      ∃ m2, regroupAll m z = .ok m2 ∧
        (∀ e ∈ z, optRead m2 e.2 = some (.str e.1)) ∧
        (∀ up, up ∉ z.map Prod.snd → optRead m2 up = optRead m up) ∧
        (∀ u, u ∉ z.map (fun e => e.2.1) → alookup m2 u = alookup m u)
  | [], m, _, _, _ => ⟨m, rfl, by simp, fun _ _ => rfl, fun _ _ => rfl⟩
  | (hk, (u, p)) :: rest, m, hread, hnd, hne => by
      obtain ⟨v, hv⟩ := hread (hk, (u, p)) (List.mem_cons_self _ _)
      rw [List.map_cons, List.nodup_cons] at hnd
      obtain ⟨hmem, hndrest⟩ := hnd
      cases hmu : alookup m u with
      | none =>
          rw [optRead, hmu] at hv
          exact Option.noConfusion hv
      | some doc =>
          have hrk : readK doc p = some v := by
            rw [optRead, hmu] at hv
            simpa using hv
          obtain ⟨doc2, hnav⟩ := navUpdate_ok_of_readK hk p doc v hrk
          have hp : p ≠ [] := hne (hk, (u, p)) (List.mem_cons_self _ _)
          have hro : regroupOne doc p hk = .ok doc2 := by
            cases p with
            | nil => exact absurd rfl hp
            | cons a as => exact hnav
          have hlk1 : alookup (dictInsert m u doc2) u = some doc2 :=
            alookup_dictInsert_self u doc2 m
          have hstep : ∀ up : String × List String, up ≠ (u, p) →
              optRead (dictInsert m u doc2) up = optRead m up := by
            intro up hup
            by_cases huu : up.1 = u
            · have hpp : up.2 ≠ p := by
                intro hh
                exact hup (Prod.ext huu hh)
              rw [optRead, optRead, huu, hlk1, hmu, Option.some_bind, Option.some_bind]
              exact readK_navUpdate_other hk p doc doc2 hnav up.2 hpp
            · rw [optRead, optRead, alookup_dictInsert_other u up.1 doc2 huu m]
          have hreadrest : ∀ e ∈ rest, ∃ w, optRead (dictInsert m u doc2) e.2 = some w := by
            intro e he
            obtain ⟨w, hw⟩ := hread e (List.mem_cons_of_mem _ he)
            have heup : e.2 ≠ (u, p) := by
              intro hh
              have h2 : e.2 ∈ rest.map Prod.snd := List.mem_map_of_mem Prod.snd he
              rw [hh] at h2
              exact hmem h2
            exact ⟨w, (hstep e.2 heup).trans hw⟩
          obtain ⟨m2, hok, hres, hpres, hlkpres⟩ :=
            regroupAll_master rest (dictInsert m u doc2) hreadrest hndrest
              (fun e he => hne e (List.mem_cons_of_mem _ he))
          refine ⟨m2, ?_, ?_, ?_, ?_⟩
          · simp only [regroupAll, hmu, hro, Except.bind]
            exact hok
          · intro e he
            rcases List.mem_cons.mp he with heq | hin
            · subst heq
              have : optRead m2 (u, p) = optRead (dictInsert m u doc2) (u, p) :=
                hpres (u, p) hmem
              rw [this, optRead, hlk1, Option.some_bind]
              exact readK_navUpdate_self hk p doc doc2 hnav
            · exact hres e hin
          · intro up hup
            rw [List.map_cons, List.mem_cons] at hup
            push_neg at hup
            exact (hpres up hup.2).trans (hstep up hup.1)
          · intro u2 hu2
            rw [List.map_cons, List.mem_cons] at hu2
            push_neg at hu2
            refine (hlkpres u2 hu2.2).trans ?_
            exact alookup_dictInsert_other u u2 doc2 hu2.1 m

/-! ## Serialized documents of built trees -/

/-- The serialized document of a non-empty directory entry list. -/
def docOfD (es : List (String × FSTree)) : JVal :=
  .obj [("o", .obj (serializeEntries (putObjectsFromEntries es)))]

theorem putObjects_eq_nil_iff : ∀ es : List (String × FSTree),
    putObjectsFromEntries es = [] ↔ es = []
  | [] => by simp [putObjectsFromEntries]
  | (n, t) :: rest => by simp [putObjectsFromEntries]

theorem alookup_putObjects (n : String) : ∀ es : List (String × FSTree),
    alookup (putObjectsFromEntries es) n =
      (alookup es n).map (fun t => putObjectFromTree t n)
  | [] => rfl
  | (a, t) :: rest => by
      by_cases h : a = n
      · subst h
        simp [putObjectsFromEntries, alookup]
      · simp [putObjectsFromEntries, alookup, h, alookup_putObjects n rest]

theorem alookup_serializeEntries (n : String) : ∀ os : List (String × LFile),
    alookup (serializeEntries os) n = (alookup os n).map LFile.serialize
  | [] => rfl
  | (a, f) :: rest => by
      by_cases h : a = n
      · subst h
        simp [serializeEntries, alookup]
      · simp [serializeEntries, alookup, h, alookup_serializeEntries n rest]

theorem serialize_put_file (r n : String) :
    (putObjectFromTree (.file r) n).serialize = .obj [("k", .lazy r)] := rfl

theorem serialize_put_dir (es : List (String × FSTree)) (n : String) (hne : es ≠ []) :
    (putObjectFromTree (.dir es) n).serialize = docOfD es := by
  have h1 : putObjectsFromEntries es ≠ [] := fun hh => hne ((putObjects_eq_nil_iff es).mp hh)
  simp only [putObjectFromTree, LFile.serialize, docOfD]
  rw [if_neg (by simpa [List.isEmpty_iff] using h1)]

theorem serialize_repository_dir (es : List (String × FSTree)) (hne : es ≠ []) :
    serialize_repository (putTreeRoot (.dir es)) = docOfD es := by
  have h1 : putObjectsFromEntries es ≠ [] := fun hh => hne ((putObjects_eq_nil_iff es).mp hh)
  simp only [putTreeRoot, serialize_repository, docOfD]
  rw [if_neg (by simpa [List.isEmpty_iff] using h1)]

theorem serialize_repository_nil :
    serialize_repository (putTreeRoot (.dir [])) = .obj [] := rfl

theorem serialize_repository_file (r : String) :
    serialize_repository (putTreeRoot (.file r)) = .obj [] := rfl

/-- A path resolvable from a non-empty list is resolvable only there. -/
theorem pathRef_ne_nil {q : List String} {r : String}
    (h : pathRef [] q = some r) : False := by
  cases q with
  | nil => exact Option.noConfusion h
  | cons n rest =>
      simp only [pathRef, alookup] at h
      cases rest <;> exact Option.noConfusion h

/-- The observation on the serialized document of a built tree reads the
deferred reference that the source tree holds at that path. -/
theorem readK_docOfD : ∀ (q : List String) (es : List (String × FSTree)) (r : String),
    pathRef es q = some r → readK (docOfD es) q = some (.lazy r)
  | [], es, r, h => Option.noConfusion h
  | n :: rest, es, r, h => by
      have hch : jChildren (docOfD es) = some (serializeEntries (putObjectsFromEntries es)) := by
        simp [docOfD, jChildren, alookup]
      simp only [pathRef] at h
      cases halk : alookup es n with
      | none =>
          rw [halk] at h
          cases rest <;> exact Option.noConfusion h
      | some t =>
          rw [halk] at h
          have hlk : alookup (serializeEntries (putObjectsFromEntries es)) n =
              some (putObjectFromTree t n).serialize := by
            rw [alookup_serializeEntries, alookup_putObjects, halk]
            rfl
          cases t with
          | file fr =>
              cases rest with
              | nil =>
                  injection h with h2
                  subst h2
                  simp only [readK, hch, Option.some_bind, hlk, serialize_put_file,
                    Option.some_bind]
                  rfl
              | cons b bs => exact Option.noConfusion h
          | dir es2 =>
              cases rest with
              | nil => exact Option.noConfusion h
              | cons b bs =>
                  have hne2 : es2 ≠ [] := by
                    intro hh
                    subst hh
                    exact pathRef_ne_nil h
                  simp only [readK, hch, Option.some_bind, hlk,
                    serialize_put_dir es2 n hne2, Option.some_bind]
                  exact readK_docOfD (b :: bs) es2 r h

/-- The source extraction (reduce over `['o'].get(part)` then `['k']`)
returns exactly what the observation reads. -/
theorem extract_of_readK : ∀ (q : List String) (doc v : JVal),
    readK doc q = some v → extractStream doc q = .ok v
  | [], doc, v, h => by
      obtain ⟨fields, rfl, hk⟩ := jKField_eq_some (h : jKField doc = some v)
      show jIndex (JVal.obj fields) "k" = Except.ok v
      simp [jIndex, hk]
  | p :: rest, doc, v, h => by
      simp only [readK] at h
      cases hch : jChildren doc with
      | none =>
          simp only [hch, Option.none_bind] at h
          exact Option.noConfusion h
      | some children =>
          simp only [hch, Option.some_bind] at h
          cases hc : alookup children p with
          | none =>
              simp only [hc, Option.none_bind] at h
              exact Option.noConfusion h
          | some child =>
              simp only [hc, Option.some_bind] at h
              obtain ⟨fields, rfl, ho⟩ := jChildren_eq_some hch
              have hstep : reduceStep (.obj fields) p = .ok child := by
                have h1 : jIndex (JVal.obj fields) "o" = .ok (.obj children) := by
                  simp [jIndex, ho]
                unfold reduceStep
                rw [h1]
                show jDictGet (JVal.obj children) p = Except.ok child
                simp [jDictGet, hc]
              have hext := extract_of_readK rest child v h
              simp only [extractStream, reduceGet, hstep, Except.bind] at hext ⊢
              exact hext

/-! ## The walk order against the source tree -/

theorem putObjects_cons (n : String) (t : FSTree) (rest : List (String × FSTree)) :
    putObjectsFromEntries ((n, t) :: rest) =
      (n, putObjectFromTree t n) :: putObjectsFromEntries rest := rfl

theorem put_file_eq (r n : String) :
    putObjectFromTree (.file r) n = .mk n .file (some (.lazy r)) [] := rfl

theorem put_dir_eq (es : List (String × FSTree)) (n : String) :
    putObjectFromTree (.dir es) n = .mk n .directory none (putObjectsFromEntries es) := rfl

theorem filesAt_cons_file (pre : List String) (n fn : String) (fk : Option KeyVal)
    (fos : List (String × LFile)) (rest : List (String × LFile)) :
    filesAt pre ((n, LFile.mk fn .file fk fos) :: rest) =
      (pre ++ [n]) :: filesAt pre rest := rfl

theorem filesAt_cons_dir (pre : List String) (n fn : String) (fk : Option KeyVal)
    (fos : List (String × LFile)) (rest : List (String × LFile)) :
    filesAt pre ((n, LFile.mk fn .directory fk fos) :: rest) = filesAt pre rest := rfl

theorem dirsWalk_cons (pre : List String) (n : String) (f : LFile)
    (rest : List (String × LFile)) :
    dirsWalk pre ((n, f) :: rest) = walkCollect (pre ++ [n]) f ++ dirsWalk pre rest := rfl

theorem walkCollect_file_eq (pre : List String) (fn : String) (fk : Option KeyVal)
    (fos : List (String × LFile)) :
    walkCollect pre (.mk fn .file fk fos) = [] := rfl

theorem walkCollect_dir_eq (pre : List String) (fn : String) (fk : Option KeyVal)
    (fos : List (String × LFile)) :
    walkCollect pre (.mk fn .directory fk fos) = filesAt pre fos ++ dirsWalk pre fos := rfl

theorem putObjects_map_fst : ∀ es : List (String × FSTree),
    (putObjectsFromEntries es).map Prod.fst = es.map Prod.fst
  | [] => rfl
  | (n, t) :: rest => by
      rw [putObjects_cons, List.map_cons, List.map_cons, putObjects_map_fst rest]

theorem filesAt_pre (pre : List String) : ∀ os : List (String × LFile),
    filesAt pre os = (filesAt [] os).map (fun q => pre ++ q)
  | [] => rfl
  | (n, .mk fn .file fk fos) :: rest => by
      rw [filesAt_cons_file, filesAt_cons_file, List.map_cons, List.nil_append,
        filesAt_pre pre rest]
  | (n, .mk fn .directory fk fos) :: rest => by
      rw [filesAt_cons_dir, filesAt_cons_dir, filesAt_pre pre rest]

mutual

theorem walkCollect_pre (pre : List String) : ∀ f : LFile,
    walkCollect pre f = (walkCollect [] f).map (fun q => pre ++ q)
  | .mk fn .file fk fos => rfl
  | .mk fn .directory fk fos => by
      rw [walkCollect_dir_eq, walkCollect_dir_eq, List.map_append,
        filesAt_pre pre fos, dirsWalk_pre pre fos]

theorem dirsWalk_pre (pre : List String) : ∀ os : List (String × LFile),
    dirsWalk pre os = (dirsWalk [] os).map (fun q => pre ++ q)
  | [] => rfl
  | (n, f) :: rest => by
      rw [dirsWalk_cons, dirsWalk_cons, List.nil_append, List.map_append,
        walkCollect_pre (pre ++ [n]) f, walkCollect_pre [n] f, List.map_map,
        dirsWalk_pre pre rest]
      congr 1
      apply List.map_congr_left
      intro q _
      simp

end

theorem mem_filesAt_nil : ∀ (os : List (String × LFile)) (p : List String),
    p ∈ filesAt [] os → ∃ n, p = [n] ∧ n ∈ os.map Prod.fst
  | [], p, h => by simp [filesAt] at h
  | (n, .mk fn .file fk fos) :: rest, p, h => by
      rw [filesAt_cons_file, List.nil_append] at h
      rcases List.mem_cons.mp h with heq | hin
      · exact ⟨n, heq, by simp⟩
      · obtain ⟨m, hm1, hm2⟩ := mem_filesAt_nil rest p hin
        exact ⟨m, hm1, by simp [hm2]⟩
  | (n, .mk fn .directory fk fos) :: rest, p, h => by
      rw [filesAt_cons_dir] at h
      obtain ⟨m, hm1, hm2⟩ := mem_filesAt_nil rest p h
      exact ⟨m, hm1, by simp [hm2]⟩

theorem mem_dirsWalk_nil : ∀ (os : List (String × LFile)) (p : List String),
    p ∈ dirsWalk [] os → ∃ n q, p = n :: q ∧ n ∈ os.map Prod.fst
  | [], p, h => by simp [dirsWalk] at h
  | (n, f) :: rest, p, h => by
      rw [dirsWalk_cons, List.nil_append] at h
      rcases List.mem_append.mp h with hin | hin
      · rw [walkCollect_pre [n] f] at hin
        obtain ⟨q, _, hq⟩ := List.mem_map.mp hin
        exact ⟨n, q, hq.symm, by simp⟩
      · obtain ⟨m, q, hm1, hm2⟩ := mem_dirsWalk_nil rest p hin
        exact ⟨m, q, hm1, by simp [hm2]⟩

theorem walkCollect_nil_ne_nil : ∀ (f : LFile) (p : List String),
    p ∈ walkCollect [] f → p ≠ []
  | .mk fn .file fk fos, p, h => by simp [walkCollect] at h
  | .mk fn .directory fk fos, p, h => by
      rw [walkCollect_dir_eq] at h
      rcases List.mem_append.mp h with hin | hin
      · obtain ⟨n, hn, _⟩ := mem_filesAt_nil fos p hin
        simp [hn]
      · obtain ⟨n, q, hn, _⟩ := mem_dirsWalk_nil fos p hin
        simp [hn]

theorem pathRef_cons_of_ne (n : String) (t : FSTree) (es : List (String × FSTree))
    (m : String) (q : List String) (h : ¬n = m) :
    pathRef ((n, t) :: es) (m :: q) = pathRef es (m :: q) := by
  simp [pathRef, alookup, h]

theorem pathRef_cons_self_file (n r : String) (es : List (String × FSTree)) :
    pathRef ((n, .file r) :: es) [n] = some r := by
  simp [pathRef, alookup]

theorem pathRef_cons_self_dir (n : String) (es2 es : List (String × FSTree))
    (b : String) (bs : List String) :
    pathRef ((n, .dir es2) :: es) (n :: b :: bs) = pathRef es2 (b :: bs) := by
  simp [pathRef, alookup]

/-- Names occurring in the tail of a well-formed entry list differ from
the head name. -/
theorem wf_head_ne {n : String} {t : FSTree} {rest : List (String × FSTree)}
    (hwf : wfEntries ((n, t) :: rest) = true) :
    ∀ m ∈ rest.map Prod.fst, ¬n = m := by
  intro m hm hnm
  subst hnm
  obtain ⟨p, hp, hp2⟩ := List.mem_map.mp hm
  simp only [wfEntries, Bool.and_eq_true, List.all_eq_true] at hwf
  have := hwf.1.1 p hp
  rw [hp2] at this
  simp at this

theorem wf_tail {n : String} {t : FSTree} {rest : List (String × FSTree)}
    (hwf : wfEntries ((n, t) :: rest) = true) : wfEntries rest = true := by
  simp only [wfEntries, Bool.and_eq_true] at hwf
  exact hwf.2

theorem wf_head {n : String} {t : FSTree} {rest : List (String × FSTree)}
    (hwf : wfEntries ((n, t) :: rest) = true) : t.wf = true := by
  simp only [wfEntries, Bool.and_eq_true] at hwf
  exact hwf.1.2

mutual

theorem walkRefs_files : ∀ (es : List (String × FSTree)), wfEntries es = true →
    (filesAt [] (putObjectsFromEntries es)).map (pathRef es) =
      (fileRefsOf es).map some
  | [], _ => rfl
  | (n, t) :: rest, hwf => by
      have hshift : (filesAt [] (putObjectsFromEntries rest)).map (pathRef ((n, t) :: rest)) =
          (filesAt [] (putObjectsFromEntries rest)).map (pathRef rest) := by
        apply List.map_congr_left
        intro p hp
        obtain ⟨m, hm1, hm2⟩ := mem_filesAt_nil _ p hp
        rw [putObjects_map_fst] at hm2
        subst hm1
        exact pathRef_cons_of_ne n t rest m [] (wf_head_ne hwf m hm2)
      cases t with
      | file r =>
          rw [putObjects_cons, put_file_eq, filesAt_cons_file, List.nil_append,
            List.map_cons, hshift, walkRefs_files rest (wf_tail hwf),
            pathRef_cons_self_file]
          rfl
      | dir es2 =>
          rw [putObjects_cons, put_dir_eq, filesAt_cons_dir, hshift,
            walkRefs_files rest (wf_tail hwf)]
          rfl

theorem walkRefs_dirs : ∀ (es : List (String × FSTree)), wfEntries es = true →
    (dirsWalk [] (putObjectsFromEntries es)).map (pathRef es) =
      (dirRefsOf es).map some
  | [], _ => rfl
  | (n, t) :: rest, hwf => by
      have hshift : (dirsWalk [] (putObjectsFromEntries rest)).map (pathRef ((n, t) :: rest)) =
          (dirsWalk [] (putObjectsFromEntries rest)).map (pathRef rest) := by
        apply List.map_congr_left
        intro p hp
        obtain ⟨m, q, hm1, hm2⟩ := mem_dirsWalk_nil _ p hp
        rw [putObjects_map_fst] at hm2
        subst hm1
        exact pathRef_cons_of_ne n t rest m q (wf_head_ne hwf m hm2)
      cases t with
      | file r =>
          rw [putObjects_cons, put_file_eq, dirsWalk_cons, List.nil_append,
            walkCollect_file_eq, List.nil_append, hshift,
            walkRefs_dirs rest (wf_tail hwf)]
          rfl
      | dir es2 =>
          have hwt : wfEntries es2 = true := by
            have := wf_head hwf
            simpa [FSTree.wf] using this
          rw [putObjects_cons, put_dir_eq, dirsWalk_cons, List.nil_append,
            List.map_append, hshift, walkRefs_dirs rest (wf_tail hwf)]
          have hgoal : (walkCollect [n]
              (LFile.mk n .directory none (putObjectsFromEntries es2))).map
                (pathRef ((n, FSTree.dir es2) :: rest)) =
              (dfsFileRefs (FSTree.dir es2)).map some := by
            rw [walkCollect_pre [n] _, List.map_map]
            have hpoint : ∀ q ∈ walkCollect []
                (LFile.mk n .directory none (putObjectsFromEntries es2)),
                (pathRef ((n, FSTree.dir es2) :: rest) ∘ fun q => [n] ++ q) q =
                  pathRef es2 q := by
              intro q hq
              have hne := walkCollect_nil_ne_nil _ q hq
              cases q with
              | nil => exact absurd rfl hne
              | cons b bs =>
                  show pathRef ((n, FSTree.dir es2) :: rest) (n :: b :: bs) =
                    pathRef es2 (b :: bs)
                  exact pathRef_cons_self_dir n es2 rest b bs
            rw [List.map_congr_left hpoint]
            rw [walkCollect_dir_eq, List.map_append, walkRefs_files es2 hwt,
              walkRefs_dirs es2 hwt]
            show _ = (fileRefsOf es2 ++ dirRefsOf es2).map some
            rw [List.map_append]
          rw [hgoal]
          show _ = (dfsFileRefs (FSTree.dir es2) ++ dirRefsOf rest).map some
          rw [List.map_append]

end

/-- The full per-entity correspondence: walking the built tree and
resolving each path on the source entries yields exactly the depth-first
reference list. -/
theorem walkRefs_main (es : List (String × FSTree)) (hwf : wfEntries es = true) :
    (walkCollect [] (putTreeRoot (.dir es))).map (pathRef es) =
      (dfsFileRefs (.dir es)).map some := by
  show ((filesAt [] (putObjectsFromEntries es) ++
      dirsWalk [] (putObjectsFromEntries es)).map (pathRef es)) = _
  rw [List.map_append, walkRefs_files es hwf, walkRefs_dirs es hwf]
  show _ = (fileRefsOf es ++ dirRefsOf es).map some
  rw [List.map_append]

/-! ## Entity-level bundling -/

/-- The entry list of an entity content root; walking a file root inserts
nothing, like walking any non-directory path. -/
def entryListOf : FSTree → List (String × FSTree)
  | .file _ => []
  | .dir es => es

/-- The relative walk paths of one entity's built tree. -/
def walkRel (t : FSTree) : List (List String) :=
  walkCollect [] (putTreeRoot t)

/-- The metadata document of one entity as built by the migration loop. -/
def docRootOf (t : FSTree) : JVal :=
  serialize_repository (putTreeRoot t)

theorem wf_entryListOf (t : FSTree) : t.wf = wfEntries (entryListOf t) := by
  cases t <;> rfl

theorem putTreeRoot_eq (t : FSTree) :
    putTreeRoot t = .mk "" .directory none (putObjectsFromEntries (entryListOf t)) := by
  cases t <;> rfl

theorem walkRefs_tree (t : FSTree) (hwf : t.wf = true) :
    (walkRel t).map (pathRef (entryListOf t)) = (dfsFileRefs t).map some := by
  cases t with
  | file r => rfl
  | dir es =>
      rw [wf_entryListOf] at hwf
      exact walkRefs_main es hwf

theorem docRootOf_emptyEntries {t : FSTree} (h : entryListOf t = []) :
    docRootOf t = .obj [] := by
  cases t with
  | file r => rfl
  | dir es =>
      have : es = [] := h
      subst this
      rfl

theorem docRootOf_ne_nil {t : FSTree} (h : entryListOf t ≠ []) :
    docRootOf t = docOfD (entryListOf t) := by
  cases t with
  | file r => exact absurd rfl h
  | dir es => exact serialize_repository_dir es h

/-- The observation on one entity's document reads the deferred reference
of the source tree at every resolvable path. -/
theorem readK_docRootOf (t : FSTree) (q : List String) (r : String)
    (h : pathRef (entryListOf t) q = some r) :
    readK (docRootOf t) q = some (.lazy r) := by
  by_cases hne : entryListOf t = []
  · rw [hne] at h
    exact absurd h (fun hh => pathRef_ne_nil hh)
  · rw [docRootOf_ne_nil hne]
    exact readK_docOfD q (entryListOf t) r h

theorem forall2_of_map_eq {α γ : Type} {f : α → Option γ} :
    ∀ {l : List α} {l2 : List γ}, l.map f = l2.map some →
      List.Forall₂ (fun a c => f a = some c) l l2
  | [], [], _ => List.Forall₂.nil
  | [], c :: l2, h => by simp at h
  | a :: l, [], h => by simp at h
  | a :: l, c :: l2, h => by
      rw [List.map_cons, List.map_cons] at h
      injection h with h1 h2
      exact List.Forall₂.cons h1 (forall2_of_map_eq h2)

/-- Per entity: each walk path resolves on the source tree. -/
theorem walkRel_forall2 (t : FSTree) (hwf : t.wf = true) :
    List.Forall₂ (fun q r => pathRef (entryListOf t) q = some r)
      (walkRel t) (dfsFileRefs t) :=
  forall2_of_map_eq (walkRefs_tree t hwf)

theorem collectStreams_of_forall2 {m : JVal} :
    ∀ {ps : List (List String)} {ss : List JVal},
      List.Forall₂ (fun p s => readK m p = some s) ps ss →
      collectStreams m ps = .ok ss
  | [], [], _ => rfl
  | p :: ps, s :: ss, List.Forall₂.cons h hrest => by
      have h1 := extract_of_readK p m s h
      have h2 := collectStreams_of_forall2 hrest
      simp only [collectStreams, h1, h2, Except.bind]
      rfl

/-- Per entity: the stream extraction of the build loop yields exactly
the depth-first deferred references, wrapped as lazy openers. -/
theorem collectStreams_entity (t : FSTree) (hwf : t.wf = true) :
    collectStreams (docRootOf t) (walkRel t) = .ok ((dfsFileRefs t).map JVal.lazy) := by
  apply collectStreams_of_forall2
  rw [List.forall₂_map_right_iff]
  apply List.Forall₂.imp ?_ (walkRel_forall2 t hwf)
  intro q r h
  exact readK_docRootOf t q r h

/-! ## The build phase -/

/-- The cross-entity flat list of tagged walk paths, in discovery order. -/
def entFilepaths (entities : List (String × FSTree)) : List (String × List String) :=
  (entities.map (fun e => (walkRel e.2).map (fun q => (e.1, q)))).flatten

/-- The cross-entity flat stream list, in discovery order and depth-first
order within each entity. -/
def entStreams (entities : List (String × FSTree)) : List JVal :=
  ((entities.map (fun e => dfsFileRefs e.2)).flatten).map JVal.lazy

/-- The metadata mapping after the build loop. -/
def entDocs (m0 : List (String × JVal)) : List (String × FSTree) → List (String × JVal)
  | [] => m0
  | (u, t) :: rest => entDocs (dictInsert m0 u (docRootOf t)) rest

theorem buildStep_eq (st : BuildState) (u : String) (t : FSTree) (hwf : t.wf = true) :
    buildStep st u t = .ok ⟨st.filepaths ++ (walkRel t).map (fun q => (u, q)),
      st.streams ++ (dfsFileRefs t).map JVal.lazy,
      dictInsert st.mappingMetadata u (docRootOf t)⟩ := by
  show (do
    let streams ← collectStreams (docRootOf t) (walkRel t)
    Except.ok (⟨st.filepaths ++ (walkRel t).map (fun p => (u, p)),
      st.streams ++ streams,
      dictInsert st.mappingMetadata u (docRootOf t)⟩ : BuildState)) = _
  rw [collectStreams_entity t hwf]
  rfl

theorem buildPhase_eq :
    ∀ (entities : List (String × FSTree)) (st : BuildState),
      (∀ e ∈ entities, e.2.wf = true) →
      buildPhase st entities = .ok ⟨st.filepaths ++ entFilepaths entities,
        st.streams ++ entStreams entities,
        entDocs st.mappingMetadata entities⟩
  | [], st, _ => by
      simp [buildPhase, entFilepaths, entStreams, entDocs]
  | (u, t) :: rest, st, hwf => by
      have hst := buildStep_eq st u t (hwf (u, t) (List.mem_cons_self _ _))
      have hrec := buildPhase_eq rest
        ⟨st.filepaths ++ (walkRel t).map (fun q => (u, q)),
         st.streams ++ (dfsFileRefs t).map JVal.lazy,
         dictInsert st.mappingMetadata u (docRootOf t)⟩
        (fun e he => hwf e (List.mem_cons_of_mem _ he))
      have h1 : entFilepaths ((u, t) :: rest) =
          (walkRel t).map (fun q => (u, q)) ++ entFilepaths rest := by
        simp [entFilepaths]
      have h2 : entStreams ((u, t) :: rest) =
          (dfsFileRefs t).map JVal.lazy ++ entStreams rest := by
        simp [entStreams]
      have h3 : entDocs st.mappingMetadata ((u, t) :: rest) =
          entDocs (dictInsert st.mappingMetadata u (docRootOf t)) rest := rfl
      have hbp : buildPhase st ((u, t) :: rest) = buildPhase
          ⟨st.filepaths ++ (walkRel t).map (fun q => (u, q)),
           st.streams ++ (dfsFileRefs t).map JVal.lazy,
           dictInsert st.mappingMetadata u (docRootOf t)⟩ rest := by
        show Bind.bind (buildStep st u t) (fun x => buildPhase x rest) = _
        rw [hst]
        rfl
      rw [h1, h2, h3, hbp, hrec, ← List.append_assoc, ← List.append_assoc]

/-! ## The built metadata mapping -/

theorem entDocs_alookup_notin :
    ∀ (entities : List (String × FSTree)) (m0 : List (String × JVal)) (u : String),
      u ∉ entities.map Prod.fst → alookup (entDocs m0 entities) u = alookup m0 u
  | [], m0, u, _ => rfl
  | (a, s) :: rest, m0, u, h => by
      rw [List.map_cons, List.mem_cons] at h
      push_neg at h
      show alookup (entDocs (dictInsert m0 a (docRootOf s)) rest) u = _
      rw [entDocs_alookup_notin rest _ u h.2,
        alookup_dictInsert_other a u (docRootOf s) h.1 m0]

theorem entDocs_alookup_mem :
    ∀ (entities : List (String × FSTree)) (m0 : List (String × JVal)) (u : String)
      (t : FSTree), (entities.map Prod.fst).Nodup → (u, t) ∈ entities →
      alookup (entDocs m0 entities) u = some (docRootOf t)
  | [], m0, u, t, _, h => absurd h (List.not_mem_nil _)
  | (a, s) :: rest, m0, u, t, hnd, h => by
      rw [List.map_cons, List.nodup_cons] at hnd
      rcases List.mem_cons.mp h with heq | hin
      · injection heq with h1 h2
        subst h1
        subst h2
        show alookup (entDocs (dictInsert m0 u (docRootOf t)) rest) u = _
        rw [entDocs_alookup_notin rest _ u hnd.1,
          alookup_dictInsert_self u (docRootOf t) m0]
      · exact entDocs_alookup_mem rest _ u t hnd.2 hin

/-! ## Flattened positional facts -/

theorem forall2_append {α β : Type} {R : α → β → Prop} :
    ∀ {l1 : List α} {l2 : List β} {l3 : List α} {l4 : List β},
      List.Forall₂ R l1 l2 → List.Forall₂ R l3 l4 → List.Forall₂ R (l1 ++ l3) (l2 ++ l4)
  | [], [], _, _, List.Forall₂.nil, h2 => h2
  | _ :: _, _ :: _, _, _, List.Forall₂.cons h h1, h2 =>
      List.Forall₂.cons h (forall2_append h1 h2)

theorem forall2_map_pair {α β γ : Type} {R : β → γ → Prop} (f : α → List β) (g : α → List γ) :
    ∀ {l : List α}, (∀ e ∈ l, List.Forall₂ R (f e) (g e)) →
      List.Forall₂ (List.Forall₂ R) (l.map f) (l.map g)
  | [], _ => List.Forall₂.nil
  | a :: _, h => List.Forall₂.cons (h a (List.mem_cons_self _ _))
      (forall2_map_pair f g (fun e he => h e (List.mem_cons_of_mem _ he)))

theorem forall2_flatten {α β : Type} {R : α → β → Prop} :
    ∀ {L1 : List (List α)} {L2 : List (List β)},
      List.Forall₂ (List.Forall₂ R) L1 L2 → List.Forall₂ R L1.flatten L2.flatten
  | [], [], List.Forall₂.nil => List.Forall₂.nil
  | l1 :: L1, l2 :: L2, List.Forall₂.cons h h2 => by
      rw [List.flatten_cons, List.flatten_cons]
      exact forall2_append h (forall2_flatten h2)

/-- Positionally, every tagged path of the cross-entity list reads, in
the freshly built mapping, the lazy deferred reference that sits at the
same position of the cross-entity stream list. -/
theorem entFilepaths_readable (entities : List (String × FSTree))
    (hnd : (entities.map Prod.fst).Nodup) (hwf : ∀ e ∈ entities, e.2.wf = true) :
    List.Forall₂ (fun up s => optRead (entDocs [] entities) up = some s)
      (entFilepaths entities) (entStreams entities) := by
  have hes : entStreams entities =
      (entities.map (fun e => (dfsFileRefs e.2).map JVal.lazy)).flatten := by
    rw [entStreams, List.map_flatten, List.map_map]
    rfl
  rw [entFilepaths, hes]
  apply forall2_flatten
  apply forall2_map_pair
  intro e he
  rw [List.forall₂_map_left_iff, List.forall₂_map_right_iff]
  apply List.Forall₂.imp ?_ (walkRel_forall2 e.2 (hwf e he))
  intro q r h
  show optRead (entDocs [] entities) (e.1, q) = some (.lazy r)
  rw [optRead]
  have hlk : alookup (entDocs [] entities) e.1 = some (docRootOf e.2) :=
    entDocs_alookup_mem entities [] e.1 e.2 hnd he
  rw [hlk, Option.some_bind]
  exact readK_docRootOf e.2 q r h

/-! ## Distinctness of the walk paths -/

theorem mem_dirsWalk_nil_strong : ∀ (os : List (String × LFile)) (p : List String),
    p ∈ dirsWalk [] os → ∃ n q, p = n :: q ∧ n ∈ os.map Prod.fst ∧ q ≠ []
  | [], p, h => by simp [dirsWalk] at h
  | (n, f) :: rest, p, h => by
      rw [dirsWalk_cons, List.nil_append] at h
      rcases List.mem_append.mp h with hin | hin
      · rw [walkCollect_pre [n] f] at hin
        obtain ⟨q, hq1, hq2⟩ := List.mem_map.mp hin
        exact ⟨n, q, hq2.symm, by simp, walkCollect_nil_ne_nil f q hq1⟩
      · obtain ⟨m, q, hm1, hm2, hm3⟩ := mem_dirsWalk_nil_strong rest p hin
        exact ⟨m, q, hm1, by simp [hm2], hm3⟩

theorem filesAt_disj_dirsWalk (os : List (String × LFile)) :
    (filesAt [] os).Disjoint (dirsWalk [] os) := by
  intro p hp1 hp2
  obtain ⟨n, hn, _⟩ := mem_filesAt_nil os p hp1
  obtain ⟨m, q, hm, _, hq⟩ := mem_dirsWalk_nil_strong os p hp2
  rw [hn] at hm
  injection hm with _ h2
  exact hq h2.symm

theorem filesAt_nodup : ∀ es : List (String × FSTree), wfEntries es = true →
    (filesAt [] (putObjectsFromEntries es)).Nodup
  | [], _ => List.nodup_nil
  | (n, t) :: rest, hwf => by
      cases t with
      | file r =>
          rw [putObjects_cons, put_file_eq, filesAt_cons_file, List.nil_append]
          rw [List.nodup_cons]
          refine ⟨?_, filesAt_nodup rest (wf_tail hwf)⟩
          intro hmem
          obtain ⟨m, hm1, hm2⟩ := mem_filesAt_nil _ _ hmem
          rw [putObjects_map_fst] at hm2
          injection hm1 with h1 _
          exact wf_head_ne hwf m hm2 h1
      | dir es2 =>
          rw [putObjects_cons, put_dir_eq, filesAt_cons_dir]
          exact filesAt_nodup rest (wf_tail hwf)

theorem dirsWalk_nodup : ∀ es : List (String × FSTree), wfEntries es = true →
    (dirsWalk [] (putObjectsFromEntries es)).Nodup
  | [], _ => List.nodup_nil
  | (n, t) :: rest, hwf => by
      cases t with
      | file r =>
          rw [putObjects_cons, put_file_eq, dirsWalk_cons, List.nil_append,
            walkCollect_file_eq, List.nil_append]
          exact dirsWalk_nodup rest (wf_tail hwf)
      | dir es2 =>
          have hwt : wfEntries es2 = true := by
            have := wf_head hwf
            simpa [FSTree.wf] using this
          rw [putObjects_cons, put_dir_eq, dirsWalk_cons, List.nil_append]
          refine List.Nodup.append ?_ (dirsWalk_nodup rest (wf_tail hwf)) ?_
          · rw [walkCollect_pre [n] _]
            apply List.Nodup.map (List.append_right_injective [n])
            rw [walkCollect_dir_eq]
            exact List.Nodup.append (filesAt_nodup es2 hwt) (dirsWalk_nodup es2 hwt)
              (filesAt_disj_dirsWalk _)
          · intro p hp1 hp2
            rw [walkCollect_pre [n] _] at hp1
            obtain ⟨q, _, hq2⟩ := List.mem_map.mp hp1
            obtain ⟨m, q2, hm1, hm2, _⟩ := mem_dirsWalk_nil_strong _ p hp2
            rw [putObjects_map_fst] at hm2
            rw [← hq2] at hm1
            injection hm1 with h1 _
            exact wf_head_ne hwf m hm2 h1

theorem walkRel_nodup (t : FSTree) (hwf : t.wf = true) : (walkRel t).Nodup := by
  cases t with
  | file r => exact List.nodup_nil
  | dir es =>
      show (filesAt [] (putObjectsFromEntries es) ++
        dirsWalk [] (putObjectsFromEntries es)).Nodup
      rw [wf_entryListOf] at hwf
      exact List.Nodup.append (filesAt_nodup es hwf) (dirsWalk_nodup es hwf)
        (filesAt_disj_dirsWalk _)

/-- The cross-entity tagged path list has pairwise-distinct elements. -/
theorem entFilepaths_nodup (entities : List (String × FSTree))
    (hnd : (entities.map Prod.fst).Nodup) (hwf : ∀ e ∈ entities, e.2.wf = true) :
    (entFilepaths entities).Nodup := by
  rw [entFilepaths, List.nodup_flatten]
  constructor
  · intro l hl
    obtain ⟨e, he, rfl⟩ := List.mem_map.mp hl
    apply List.Nodup.map ?_ (walkRel_nodup e.2 (hwf e he))
    intro q1 q2 hq
    injection hq
  · rw [List.pairwise_map]
    have hpw : List.Pairwise (fun e1 e2 : String × FSTree => e1.1 ≠ e2.1) entities := by
      have := hnd
      rw [List.Nodup, List.pairwise_map] at this
      exact this
    apply List.Pairwise.imp ?_ hpw
    intro e1 e2 hne
    intro p hp1 hp2
    obtain ⟨q1, _, hq1⟩ := List.mem_map.mp hp1
    obtain ⟨q2, _, hq2⟩ := List.mem_map.mp hp2
    rw [← hq1] at hq2
    injection hq2 with h1 _
    exact hne h1.symm

/-! ## Zip bookkeeping -/

theorem map_snd_zip_take {α β : Type} :
    ∀ (a : List α) (b : List β), (a.zip b).map Prod.snd = b.take a.length
  | [], b => by simp
  | x :: a, [] => by simp
  | x :: a, y :: b => by
      rw [List.zip_cons_cons, List.map_cons, List.length_cons, List.take_succ_cons,
        map_snd_zip_take a b]

/-! ## Monadic plumbing -/

theorem except_bind_ok {α β γ : Type} (a : α) (f : α → Except γ β) :
    (Except.ok a : Except γ α) >>= f = f a := rfl

theorem except_bind_error {α β γ : Type} (e : γ) (f : α → Except γ β) :
    (Except.error e : Except γ α) >>= f = Except.error e := rfl

theorem forall2_mem_left {α β : Type} {R : α → β → Prop} :
    ∀ {l1 : List α} {l2 : List β}, List.Forall₂ R l1 l2 → ∀ a ∈ l1, ∃ b, R a b
  | _, _, List.Forall₂.nil, a, ha => absurd ha (List.not_mem_nil a)
  | _, _, List.Forall₂.cons h hrest, a, ha => by
      rcases List.mem_cons.mp ha with heq | hin
      · subst heq
        exact ⟨_, h⟩
      · exact forall2_mem_left hrest a hin

theorem entFilepaths_snd_ne_nil (entities : List (String × FSTree)) :
    ∀ up ∈ entFilepaths entities, up.2 ≠ ([] : List String) := by
  intro up hup
  rw [entFilepaths, List.mem_flatten] at hup
  obtain ⟨l, hl, hup2⟩ := hup
  obtain ⟨e, _, rfl⟩ := List.mem_map.mp hl
  obtain ⟨q, hq, rfl⟩ := List.mem_map.mp hup2
  exact walkCollect_nil_ne_nil _ q hq

/-! ## Scan invariants -/

/-- The shape of every identity key the scan constructs: a concatenation
of three matched shard names. -/
def keyShaped (k : String) : Prop :=
  ∃ s1 s2 s3, matchesShardSub s1 = true ∧ matchesShardSub s2 = true ∧
    matchesShardFinal s3 = true ∧ k = s1 ++ s2 ++ s3

/-- The invariant carried through the scan loops. -/
def ScanInv (st : ScanState) : Prop :=
  (st.mapping.map Prod.fst).Nodup ∧ ∀ k ∈ st.mapping.map Prod.fst, keyShaped k

theorem scanInv_insert {m : List (String × FSTree)}
    (hnd : (m.map Prod.fst).Nodup) (hshapes : ∀ k ∈ m.map Prod.fst, keyShaped k)
    (uuid : String) (v : FSTree) (hsh : keyShaped uuid) :
    ((dictInsert m uuid v).map Prod.fst).Nodup ∧
      ∀ k ∈ (dictInsert m uuid v).map Prod.fst, keyShaped k := by
  refine ⟨nodup_dictInsert uuid v m hnd, ?_⟩
  intro k hk
  by_cases hp : (alookup m uuid).isSome
  · rw [dictInsert_map_fst_present uuid v m hp] at hk
    exact hshapes k hk
  · have hn : alookup m uuid = none := by
      cases hv : alookup m uuid with
      | none => rfl
      | some w => rw [hv] at hp; simp at hp
    rw [dictInsert_map_fst_absent uuid v m hn, List.mem_append] at hk
    rcases hk with hk | hk
    · exact hshapes k hk
    · rw [List.mem_singleton] at hk
      subst hk
      exact hsh

theorem scanIdentity_inv {s1 s2 s3 : String} {st st2 : ScanState} {tree : FSTree}
    (hm1 : matchesShardSub s1 = true) (hm2 : matchesShardSub s2 = true)
    (hm3 : matchesShardFinal s3 = true)
    (hinv : ScanInv st) (h : scanIdentity s1 s2 s3 st tree = .ok st2) : ScanInv st2 := by
  have hsh : keyShaped (s1 ++ s2 ++ s3) := ⟨s1, s2, s3, hm1, hm2, hm3, rfl⟩
  unfold scanIdentity at h
  cases hit : tree.iterdir with
  | error e =>
      rw [hit, except_bind_error] at h
      exact Except.noConfusion h
  | ok entries =>
      rw [hit, except_bind_ok] at h
      cases hpa : alookup entries "path" with
      | some p =>
          rw [hpa] at h
          injection h with h2
          subst h2
          exact scanInv_insert hinv.1 hinv.2 _ p hsh
      | none =>
          rw [hpa] at h
          cases hra : alookup entries "raw_input" with
          | some p =>
              rw [hra] at h
              injection h with h2
              subst h2
              exact scanInv_insert hinv.1 hinv.2 _ p hsh
          | none =>
              rw [hra] at h
              cases hpv : st.pathVar with
              | some stale =>
                  rw [hpv] at h
                  injection h with h2
                  subst h2
                  exact scanInv_insert hinv.1 hinv.2 _ stale hsh
              | none =>
                  rw [hpv] at h
                  exact Except.noConfusion h

theorem scanLevel3_inv {s1 s2 : String}
    (hm1 : matchesShardSub s1 = true) (hm2 : matchesShardSub s2 = true) :
    ∀ (entries : List (String × FSTree)) (st st2 : ScanState),
      ScanInv st → scanLevel3 s1 s2 st entries = .ok st2 → ScanInv st2
  | [], st, st2, hinv, h => by
      injection h with h2
      subst h2
      exact hinv
  | (name, t) :: rest, st, st2, hinv, h => by
      by_cases hm : matchesShardFinal name
      · simp only [scanLevel3, hm, if_true] at h
        cases hid : scanIdentity s1 s2 name st t with
        | error e =>
            rw [hid, except_bind_error] at h
            exact Except.noConfusion h
        | ok st3 =>
            rw [hid, except_bind_ok] at h
            exact scanLevel3_inv hm1 hm2 rest st3 st2
              (scanIdentity_inv hm1 hm2 hm hinv hid) h
      · simp only [scanLevel3, hm, if_false] at h
        exact scanLevel3_inv hm1 hm2 rest st st2 hinv h

theorem scanLevel2_inv {s1 : String} (hm1 : matchesShardSub s1 = true) :
    ∀ (entries : List (String × FSTree)) (st st2 : ScanState),
      ScanInv st → scanLevel2 s1 st entries = .ok st2 → ScanInv st2
  | [], st, st2, hinv, h => by
      injection h with h2
      subst h2
      exact hinv
  | (name, t) :: rest, st, st2, hinv, h => by
      by_cases hm : matchesShardSub name
      · simp only [scanLevel2, hm, if_true] at h
        cases hit : t.iterdir with
        | error e =>
            rw [hit, except_bind_error] at h
            exact Except.noConfusion h
        | ok entries2 =>
            rw [hit, except_bind_ok] at h
            cases h3 : scanLevel3 s1 name st entries2 with
            | error e =>
                rw [h3, except_bind_error] at h
                exact Except.noConfusion h
            | ok st3 =>
                rw [h3, except_bind_ok] at h
                exact scanLevel2_inv hm1 rest st3 st2
                  (scanLevel3_inv hm1 hm entries2 st st3 hinv h3) h
      · simp only [scanLevel2, hm, if_false] at h
        exact scanLevel2_inv hm1 rest st st2 hinv h

theorem scanLevel1_inv :
    ∀ (entries : List (String × FSTree)) (st st2 : ScanState),
      ScanInv st → scanLevel1 st entries = .ok st2 → ScanInv st2
  | [], st, st2, hinv, h => by
      injection h with h2
      subst h2
      exact hinv
  | (name, t) :: rest, st, st2, hinv, h => by
      by_cases hm : matchesShardSub name
      · simp only [scanLevel1, hm, if_true] at h
        cases hit : t.iterdir with
        | error e =>
            rw [hit, except_bind_error] at h
            exact Except.noConfusion h
        | ok entries2 =>
            rw [hit, except_bind_ok] at h
            cases h2 : scanLevel2 name st entries2 with
            | error e =>
                rw [h2, except_bind_error] at h
                exact Except.noConfusion h
            | ok st3 =>
                rw [h2, except_bind_ok] at h
                exact scanLevel1_inv rest st3 st2
                  (scanLevel2_inv hm entries2 st st3 hinv h2) h
      · simp only [scanLevel1, hm, if_false] at h
        exact scanLevel1_inv rest st st2 hinv h

/-- Every completed scan yields a mapping with pairwise-distinct keys,
each the concatenation of three matched shard names. -/
theorem scan_inv {be : List (String × FSTree)} {st : ScanState}
    (h : get_node_repository_dirpaths be = .ok st) : ScanInv st :=
  scanLevel1_inv be ⟨[], [], none⟩ st ⟨List.nodup_nil, by simp⟩ h

/-! ## The complete run -/

/-- End-to-end description of a completed migration run over an
initialised container and an existing basepath: the scan result drives
one build phase, exactly one pack call on the cross-entity stream list,
and a regroup pass whose effect is described positionally. -/
theorem migrate_complete (be : List (String × FSTree)) (pack : List JVal → List String)
    (st : ScanState) (hscan : get_node_repository_dirpaths be = .ok st)
    (hwf : ∀ e ∈ st.mapping, e.2.wf = true) :
    ∃ m2,
      migrate_legacy_repository true (some be) pack =
        .ok ⟨some m2, st.warnings, [⟨entStreams st.mapping, true, true⟩]⟩ ∧
      (∀ e ∈ List.zip (pack (entStreams st.mapping)) (entFilepaths st.mapping),
        optRead m2 e.2 = some (.str e.1)) ∧
      (∀ up, up ∉ (entFilepaths st.mapping).take (pack (entStreams st.mapping)).length →
        optRead m2 up = optRead (entDocs [] st.mapping) up) ∧
      (∀ u, u ∉ ((entFilepaths st.mapping).take
          (pack (entStreams st.mapping)).length).map Prod.fst →
        alookup m2 u = alookup (entDocs [] st.mapping) u) := by
  have hnd : (st.mapping.map Prod.fst).Nodup := (scan_inv hscan).1
  have hsnd : (List.zip (pack (entStreams st.mapping)) (entFilepaths st.mapping)).map
      Prod.snd = (entFilepaths st.mapping).take (pack (entStreams st.mapping)).length :=
    map_snd_zip_take _ _
  have hmemF : ∀ e ∈ List.zip (pack (entStreams st.mapping)) (entFilepaths st.mapping),
      e.2 ∈ entFilepaths st.mapping := by
    intro e he
    have h1 : e.2 ∈ (List.zip (pack (entStreams st.mapping))
        (entFilepaths st.mapping)).map Prod.snd := List.mem_map_of_mem Prod.snd he
    rw [hsnd] at h1
    exact (List.take_sublist _ _).subset h1
  have hreadable : ∀ e ∈ List.zip (pack (entStreams st.mapping)) (entFilepaths st.mapping),
      ∃ v, optRead (entDocs [] st.mapping) e.2 = some v := by
    intro e he
    exact forall2_mem_left (entFilepaths_readable st.mapping hnd hwf) e.2 (hmemF e he)
  have hndz : ((List.zip (pack (entStreams st.mapping))
      (entFilepaths st.mapping)).map Prod.snd).Nodup := by
    rw [hsnd]
    exact (entFilepaths_nodup st.mapping hnd hwf).sublist (List.take_sublist _ _)
  have hnonnil : ∀ e ∈ List.zip (pack (entStreams st.mapping)) (entFilepaths st.mapping),
      e.2.2 ≠ ([] : List String) := by
    intro e he
    exact entFilepaths_snd_ne_nil st.mapping e.2 (hmemF e he)
  obtain ⟨m2, hok, hres, hpres, hlk⟩ := regroupAll_master
    (List.zip (pack (entStreams st.mapping)) (entFilepaths st.mapping))
    (entDocs [] st.mapping) hreadable hndz hnonnil
  refine ⟨m2, ?_, hres, ?_, ?_⟩
  · have hbp := buildPhase_eq st.mapping ⟨[], [], []⟩ hwf
    have h1 : migrate_legacy_repository true (some be) pack =
        (get_node_repository_dirpaths be >>= fun scan =>
          buildPhase ⟨[], [], []⟩ scan.mapping >>= fun built =>
          regroupAll built.mappingMetadata
            (List.zip (pack built.streams) built.filepaths) >>= fun final =>
          Except.ok ⟨some final, scan.warnings, [⟨built.streams, true, true⟩]⟩) := rfl
    rw [h1, hscan, except_bind_ok]
    show (buildPhase ⟨[], [], []⟩ st.mapping >>= fun built =>
        regroupAll built.mappingMetadata
          (List.zip (pack built.streams) built.filepaths) >>= fun final =>
        Except.ok (⟨some final, st.warnings,
          [⟨built.streams, true, true⟩]⟩ : MigrateResult)) = _
    rw [hbp, except_bind_ok]
    show (regroupAll (entDocs [] st.mapping)
        (List.zip (pack (entStreams st.mapping)) (entFilepaths st.mapping)) >>= fun final =>
        Except.ok (⟨some final, st.warnings,
          [⟨entStreams st.mapping, true, true⟩]⟩ : MigrateResult)) = _
    rw [hok, except_bind_ok]
  · intro up hup
    apply hpres
    rw [hsnd]
    exact hup
  · intro u hu
    apply hlk
    have hmm : (List.zip (pack (entStreams st.mapping))
        (entFilepaths st.mapping)).map (fun e => e.2.1) =
        ((entFilepaths st.mapping).take (pack (entStreams st.mapping)).length).map
          Prod.fst := by
      rw [← hsnd, List.map_map]
      rfl
    rw [hmm]
    exact hu

/-! ## Remaining support lemmas -/

theorem alookup_some_mem {α : Type} {u : String} {v : α} :
    ∀ {m : List (String × α)}, alookup m u = some v → (u, v) ∈ m
  | [], h => Option.noConfusion h
  | (a, b) :: rest, h => by
      by_cases ha : a = u
      · subst ha
        simp only [alookup, if_pos rfl] at h
        injection h with h2
        subst h2
        exact List.mem_cons_self _ _
      · simp only [alookup, if_neg ha] at h
        exact List.mem_cons_of_mem _ (alookup_some_mem h)

theorem mem_nodup_alookup {α : Type} {u : String} {t : α} :
    ∀ {m : List (String × α)}, (m.map Prod.fst).Nodup → (u, t) ∈ m →
      alookup m u = some t
  | [], _, h => absurd h (List.not_mem_nil _)
  | (a, b) :: rest, hnd, h => by
      rw [List.map_cons, List.nodup_cons] at hnd
      rcases List.mem_cons.mp h with heq | hin
      · injection heq with h1 h2
        subst h1
        subst h2
        simp [alookup]
      · have ha : ¬a = u := by
          intro hh
          subst hh
          exact hnd.1 (List.mem_map.mpr ⟨(a, t), hin, rfl⟩)
        simp only [alookup, if_neg ha]
        exact mem_nodup_alookup hnd.2 hin

theorem entFilepaths_fst_mem {entities : List (String × FSTree)} {u : String}
    {q : List String} (h : (u, q) ∈ entFilepaths entities) :
    ∃ t, (u, t) ∈ entities ∧ q ∈ walkRel t := by
  rw [entFilepaths, List.mem_flatten] at h
  obtain ⟨l, hl, hmem⟩ := h
  obtain ⟨e, he, rfl⟩ := List.mem_map.mp hl
  obtain ⟨q2, hq2, heq⟩ := List.mem_map.mp hmem
  injection heq with h1 h2
  subst h1
  subst h2
  exact ⟨e.2, he, hq2⟩

theorem matchesAnchored_length {p : Char → Bool} {n : Nat} {s : String}
    (h : matchesAnchored p n s = true) : n ≤ s.length := by
  simp only [matchesAnchored, Bool.and_eq_true, decide_eq_true_eq] at h
  have hlen : s.toList.length = s.length := rfl
  by_cases hl : s.toList.getLast? = some (Char.ofNat 10)
  · rw [if_pos hl] at h
    have := h.1
    have h1 : s.toList.dropLast.length = s.toList.length - 1 := List.length_dropLast _
    omega
  · rw [if_neg hl] at h
    omega

theorem keyShaped_length {k : String} (h : keyShaped k) : 36 ≤ k.length := by
  obtain ⟨s1, s2, s3, h1, h2, h3, rfl⟩ := h
  have l1 : 2 ≤ s1.length := matchesAnchored_length h1
  have l2 : 2 ≤ s2.length := matchesAnchored_length h2
  have l3 : 32 ≤ s3.length := matchesAnchored_length h3
  rw [String.length_append, String.length_append]
  omega

theorem nodup_get_not_mem_take {α : Type} {l : List α} (hnd : l.Nodup)
    {k i : Nat} (hk : k ≤ i) (hi : i < l.length) : l.get ⟨i, hi⟩ ∉ l.take k := by
  intro hmem
  have hv : l.get ⟨i, hi⟩ = l[i] := rfl
  rw [hv, List.mem_take_iff_getElem] at hmem
  obtain ⟨j, hj, hje⟩ := hmem
  have := (hnd.getElem_inj_iff).mp hje
  omega

/-- Positional form of the initial readability of the built mapping. -/
theorem entFilepaths_readable_get (entities : List (String × FSTree))
    (hnd : (entities.map Prod.fst).Nodup) (hwf : ∀ e ∈ entities, e.2.wf = true) :
    (entFilepaths entities).length = (entStreams entities).length ∧
    ∀ (i : Nat) (h1 : i < (entFilepaths entities).length)
      (h2 : i < (entStreams entities).length),
      optRead (entDocs [] entities) ((entFilepaths entities).get ⟨i, h1⟩) =
        some ((entStreams entities).get ⟨i, h2⟩) := by
  have := List.forall₂_iff_get.mp (entFilepaths_readable entities hnd hwf)
  exact this

/-! ## Concrete example inputs -/

def exS3a : String := "5678-1234-1234-1234-123456789abc"

def exS3b : String := "ffff-ffff-ffff-ffff-ffffffffffff"

def exTreeA : FSTree := .dir [("file1.txt", .file "F1")]

def exTreeB : FSTree := .dir [("sub", .dir [("file2.txt", .file "F2")])]

/-- A two-entity legacy repository: one entity stores its files under
`path`, the other under `raw_input`. -/
def exBase : List (String × FSTree) :=
  [("12", .dir [("34", .dir [(exS3a, .dir [("path", exTreeA)])])]),
   ("dd", .dir [("ee", .dir [(exS3b, .dir [("raw_input", exTreeB)])])])]

def exPack : List JVal → List String := fun _ => ["K1", "K2"]

def exScanSt : ScanState :=
  ⟨[("12" ++ "34" ++ exS3a, exTreeA), ("dd" ++ "ee" ++ exS3b, exTreeB)],
   [], some exTreeB⟩

def exResult : MigrateResult :=
  ⟨some [("12" ++ "34" ++ exS3a,
            .obj [("o", .obj [("file1.txt", .obj [("k", .str "K1")])])]),
         ("dd" ++ "ee" ++ exS3b,
            .obj [("o", .obj [("sub",
              .obj [("o", .obj [("file2.txt", .obj [("k", .str "K2")])])])])])],
   [], [⟨[.lazy "F1", .lazy "F2"], true, true⟩]⟩

/-- A one-entity repository whose entity has an empty content root. -/
def exBaseEmptyEnt : List (String × FSTree) :=
  [("12", .dir [("34", .dir [(exS3a, .dir [("path", .dir [])])])])]

/-- A repository whose first scanned identity has neither `path` nor
`raw_input`. -/
def exBaseMissingFirst : List (String × FSTree) :=
  [("12", .dir [("34", .dir [(exS3a, .dir [("other", .dir [])])])])]

/-- A repository whose second scanned identity has neither `path` nor
`raw_input`, after a first identity that does. -/
def exBaseStale : List (String × FSTree) :=
  [("12", .dir [("34", .dir [(exS3a, .dir [("path", exTreeA)])])]),
   ("dd", .dir [("ee", .dir [(exS3b, .dir [("other", .dir [])])])])]

/-! ## The claims -/

/-- C1: for every completed run of `migrate_legacy_repository` over an
initialised container, an existing basepath and a non-empty set of
well-formed discovered entities, `add_streamed_objects_to_pack` is
invoked exactly once, with compression enabled (and open_streams), and
its input is the single flat list of deferred content references
(`entStreams`): entity-discovery order across entities, depth-first walk
order within each entity. -/
theorem claim_C1 (be : List (String × FSTree)) (pack : List JVal → List String)
    (st : ScanState) (res : MigrateResult)
    (hscan : get_node_repository_dirpaths be = .ok st)
    (hwf : ∀ e ∈ st.mapping, e.2.wf = true)
    (hne : st.mapping ≠ [])
    (hrun : migrate_legacy_repository true (some be) pack = .ok res) :
    res.packCalls = [⟨entStreams st.mapping, true, true⟩] := by
  obtain ⟨m2, heq, _, _, _⟩ := migrate_complete be pack st hscan hwf
  rw [hrun] at heq
  injection heq with h2
  rw [h2]

theorem claim_C1_witness :
    exResult.packCalls = [⟨entStreams exScanSt.mapping, true, true⟩] :=
  claim_C1 exBase exPack exScanSt exResult rfl (by decide) (by simp [exScanSt]) rfl

/-- C2: in a completed run, the file collected at global position `i` of
the per-entity build phase is paired positionally with the hash key at
position `i` of the bulk pack result: descending the returned document
of that file's identity through the `o` children along the path parts
and reading `k` at the final component (the observation `optRead`)
yields exactly that key.  The in-place dict mutation of the source is
rendered as the functional update whose effect `optRead` reports. -/
theorem claim_C2 (be : List (String × FSTree)) (pack : List JVal → List String)
    (st : ScanState) (res : MigrateResult)
    (hscan : get_node_repository_dirpaths be = .ok st)
    (hwf : ∀ e ∈ st.mapping, e.2.wf = true)
    (hrun : migrate_legacy_repository true (some be) pack = .ok res) :
    ∃ m2, res.returned = some m2 ∧
      ∀ (i : Nat) (hF : i < (entFilepaths st.mapping).length)
        (hK : i < (pack (entStreams st.mapping)).length),
        optRead m2 ((entFilepaths st.mapping).get ⟨i, hF⟩) =
          some (.str ((pack (entStreams st.mapping)).get ⟨i, hK⟩)) := by
  obtain ⟨m2, heq, hres, _, _⟩ := migrate_complete be pack st hscan hwf
  rw [hrun] at heq
  injection heq with h2
  refine ⟨m2, by rw [h2], ?_⟩
  intro i hF hK
  have hz : i < (List.zip (pack (entStreams st.mapping))
      (entFilepaths st.mapping)).length := by
    rw [List.length_zip]
    exact lt_min hK hF
  have hmem := List.get_mem (List.zip (pack (entStreams st.mapping))
      (entFilepaths st.mapping)) i hz
  have hel : (List.zip (pack (entStreams st.mapping))
      (entFilepaths st.mapping)).get ⟨i, hz⟩ =
      ((pack (entStreams st.mapping)).get ⟨i, hK⟩,
       (entFilepaths st.mapping).get ⟨i, hF⟩) := by
    rw [List.get_eq_getElem, List.getElem_zip]
    rfl
  have := hres _ hmem
  rw [hel] at this
  exact this

theorem claim_C2_witness :
    ∃ m2, exResult.returned = some m2 ∧
      ∀ (i : Nat) (hF : i < (entFilepaths exScanSt.mapping).length)
        (hK : i < (exPack (entStreams exScanSt.mapping)).length),
        optRead m2 ((entFilepaths exScanSt.mapping).get ⟨i, hF⟩) =
          some (.str ((exPack (entStreams exScanSt.mapping)).get ⟨i, hK⟩)) :=
  claim_C2 exBase exPack exScanSt exResult rfl (by decide) rfl

/-- C3: the claim says an identity directory with neither `path` nor
`raw_input` is warned about, excluded from the mapping, and scanning
continues without raising.  The code emits the warning but has no
`continue`: the trailing `mapping[uuid] = path` still runs.  When the
offender is the first matched identity, `path` is unbound and the scan
raises `UnboundLocalError`; otherwise the offender is *included* in the
mapping, bound to the stale path of a previous identity. -/
theorem claim_C3_code_behavior :
    (get_node_repository_dirpaths exBaseMissingFirst =
      .error (.unboundLocalError "local variable path referenced before assignment")) ∧
    (get_node_repository_dirpaths exBaseStale =
      .ok ⟨[("12" ++ "34" ++ exS3a, exTreeA), ("dd" ++ "ee" ++ exS3b, exTreeA)],
        [warnMissingSub "dd" "ee" exS3b], some exTreeA⟩) :=
  ⟨rfl, rfl⟩

/-- C4: the claim says the run fails fatally when the container already
reports itself initialised and proceeds when it is not.  The source
(line 119) has the check inverted: it raises RuntimeError (with a
message claiming the container already exists) exactly when
`is_initialised` is false, and proceeds when it is true. -/
theorem claim_C4_code_behavior :
    (∀ (bp : Option (List (String × FSTree))) (pack : List JVal → List String),
      migrate_legacy_repository false bp pack =
        .error (.runtimeError "the container already exists.")) ∧
    (∃ res, migrate_legacy_repository true (some []) (fun _ => []) = .ok res) ∧
    (∃ res, migrate_legacy_repository true none (fun _ => []) = .ok res) :=
  ⟨fun _ _ => rfl, ⟨_, rfl⟩, ⟨_, rfl⟩⟩

/-- C5: the claim says the function returns both the metadata mapping
and an auxiliary list of identities missing `path`/`raw_input`.  The
source returns only `mapping_metadata` (line 158); the embedded result
record carries the python return value in `returned`, which on a
successful run holds the mapping alone — there is no second component
for the caller of `0047_migrate_repository.py` (which unpacks two
values) to receive. -/
theorem claim_C5_code_behavior :
    migrate_legacy_repository true (some exBase) exPack = .ok exResult :=
  rfl

/-- C6 counterexample: the claim says every key of the returned mapping
is a 32-character string.  On a legacy layout whose final shard level is
the 32-character hyphen-bearing remainder of a hyphenated UUID, the
constructed key is the 36-character hyphenated UUID, not a 32-character
hex string. -/
theorem claim_C6_counterexample :
    ∃ st, get_node_repository_dirpaths exBaseEmptyEnt = .ok st ∧
      st.mapping.map Prod.fst = ["12" ++ "34" ++ exS3a] ∧
      ¬(("12" ++ "34" ++ exS3a).length = 32) :=
  ⟨_, rfl, rfl, by decide⟩

/-- C6 (amended): every key of the mapping returned by
`get_node_repository_dirpaths` is the concatenation of the three matched
shard directory names — two matching `[0-9a-f]` pairs and a final level
matching 32 characters of `[0-9a-f-]` — and therefore has length at
least 36 (a hyphenated UUID form), never 32. -/
theorem claim_C6_amended (be : List (String × FSTree)) (st : ScanState)
    (hscan : get_node_repository_dirpaths be = .ok st) :
    ∀ k ∈ st.mapping.map Prod.fst, keyShaped k ∧ 36 ≤ k.length ∧ k.length ≠ 32 :=
  fun k hk =>
    ⟨(scan_inv hscan).2 k hk,
     keyShaped_length ((scan_inv hscan).2 k hk),
     by have := keyShaped_length ((scan_inv hscan).2 k hk); omega⟩

theorem claim_C6_amended_witness :
    keyShaped ("12" ++ "34" ++ exS3a) ∧ 36 ≤ ("12" ++ "34" ++ exS3a).length ∧
      ("12" ++ "34" ++ exS3a).length ≠ 32 :=
  claim_C6_amended exBaseEmptyEnt ⟨[("12" ++ "34" ++ exS3a, .dir [])], [], some (.dir [])⟩
    rfl ("12" ++ "34" ++ exS3a) (by simp)

/-- C7: an entity serializes to the empty object when its content root
has no children, to an object with a single `o` field holding the
children documents when it has children, and each file leaf serializes
to an object with single field `k`; an entity discovered with an empty
content root still appears in the final output mapping of a completed
run, with the empty-directory document. -/
theorem claim_C7 :
    (∀ n r : String, (putObjectFromTree (.file r) n).serialize = .obj [("k", .lazy r)]) ∧
    (serialize_repository (putTreeRoot (.dir [])) = .obj []) ∧
    (∀ es : List (String × FSTree), es ≠ [] →
      serialize_repository (putTreeRoot (.dir es)) =
        .obj [("o", .obj (serializeEntries (putObjectsFromEntries es)))]) ∧
    (∀ (be : List (String × FSTree)) (pack : List JVal → List String)
      (st : ScanState) (res : MigrateResult) (u : String),
      get_node_repository_dirpaths be = .ok st →
      (∀ e ∈ st.mapping, e.2.wf = true) →
      alookup st.mapping u = some (.dir []) →
      migrate_legacy_repository true (some be) pack = .ok res →
      ∃ m2, res.returned = some m2 ∧ alookup m2 u = some (.obj [])) := by
  refine ⟨fun n r => rfl, rfl, fun es hne => serialize_repository_dir es hne, ?_⟩
  intro be pack st res u hscan hwf halk hrun
  have hnd : (st.mapping.map Prod.fst).Nodup := (scan_inv hscan).1
  obtain ⟨m2, heq, _, _, hlk⟩ := migrate_complete be pack st hscan hwf
  rw [hrun] at heq
  injection heq with h2
  refine ⟨m2, by rw [h2], ?_⟩
  have huntouched : u ∉ ((entFilepaths st.mapping).take
      (pack (entStreams st.mapping)).length).map Prod.fst := by
    intro hmem
    obtain ⟨p, hp, hpu⟩ := List.mem_map.mp hmem
    have hpF : p ∈ entFilepaths st.mapping := (List.take_sublist _ _).subset hp
    have hpe : (u, p.2) ∈ entFilepaths st.mapping := by
      rw [← hpu]
      exact hpF
    obtain ⟨t, htmem, hqmem⟩ := entFilepaths_fst_mem hpe
    have := mem_nodup_alookup hnd htmem
    rw [halk] at this
    injection this with h3
    rw [← h3] at hqmem
    exact absurd hqmem (List.not_mem_nil _)
  rw [hlk u huntouched]
  have hmem : (u, FSTree.dir []) ∈ st.mapping := alookup_some_mem halk
  rw [entDocs_alookup_mem st.mapping [] u (.dir []) hnd hmem]
  rfl

theorem claim_C7_witness :
    ∃ m2, (⟨some [("12" ++ "34" ++ exS3a, .obj [])], [],
        [⟨[], true, true⟩]⟩ : MigrateResult).returned = some m2 ∧
      alookup m2 ("12" ++ "34" ++ exS3a) = some (.obj []) :=
  claim_C7.2.2.2 exBaseEmptyEnt (fun _ => [])
    ⟨[("12" ++ "34" ++ exS3a, .dir [])], [], some (.dir [])⟩
    ⟨some [("12" ++ "34" ++ exS3a, .obj [])], [], [⟨[], true, true⟩]⟩
    ("12" ++ "34" ++ exS3a) rfl (by decide) rfl rfl

/-- C8: when the legacy repository basepath is not a directory, the run
(past the container check) emits exactly one nothing-to-migrate notice,
performs no scan, build or pack call, and returns the no-migration
result `None`, which is distinguishable from a successful migration
(whose return value is the metadata mapping). -/
theorem claim_C8 (pack : List JVal → List String) :
    migrate_legacy_repository true none pack =
      .ok ⟨none, ["could not find the repository basepath: nothing to migrate"], []⟩ :=
  rfl

/-- C9: every successfully constructed `LazyFile` satisfies the
invariant (a directory carries no key, a file carries no children); a
well-typed non-None key together with the DIRECTORY type raises
ValueError, a non-None objects mapping together with the FILE type
raises ValueError, and a key that is neither None, str nor LazyOpener
raises TypeError. -/
theorem claim_C9 :
    (∀ (name : String) (ft : FileType) (key : KeyArg)
      (objects : Option (List (String × LFile))) (f : LFile),
      LazyFile.construct name ft key objects = .ok f →
      (f.fileType = .directory → f.key = none) ∧
      (f.fileType = .file → f.objects = [])) ∧
    (∀ (name : String) (key : KeyArg) (objects : Option (List (String × LFile))),
      key ≠ KeyArg.noneVal → key.isValidType = true →
      LazyFile.construct name .directory key objects =
        .error (.valueError "an object of type FileType.DIRECTORY cannot define a key.")) ∧
    (∀ (name : String) (key : KeyArg) (objects : List (String × LFile)),
      key.isValidType = true →
      LazyFile.construct name .file key (some objects) =
        .error (.valueError "an object of type FileType.FILE cannot define any objects.")) ∧
    (∀ (name : String) (ft : FileType) (objects : Option (List (String × LFile))),
      LazyFile.construct name ft KeyArg.other objects =
        .error (.typeError "key should be None or a string.")) := by
  refine ⟨?_, ?_, ?_, ?_⟩
  · intro name ft key objects f h
    unfold LazyFile.construct at h
    split_ifs at h with h1 h2 h3
    injection h with h4
    subst h4
    push_neg at h1 h2 h3
    constructor
    · intro hd
      have hk : key = KeyArg.noneVal := by
        cases ft with
        | directory => exact h2 rfl
        | file => exact absurd hd (by simp [LFile.fileType])
      subst hk
      rfl
    · intro hf
      have ho : objects.isSome ≠ true := by
        cases ft with
        | directory => exact absurd hf (by simp [LFile.fileType])
        | file => exact h3 rfl
      have : objects = none := by
        cases objects with
        | none => rfl
        | some os => simp at ho
      subst this
      rfl
  · intro name key objects hk hv
    unfold LazyFile.construct
    rw [if_neg (by simp [hv]), if_pos ⟨rfl, hk⟩]
  · intro name key objects hv
    unfold LazyFile.construct
    rw [if_neg (by simp [hv])]
    rw [if_neg (by simp)]
    rw [if_pos ⟨rfl, rfl⟩]
  · intro name ft objects
    unfold LazyFile.construct
    rw [if_pos ⟨by simp, rfl⟩]

theorem claim_C9_witness :
    (LazyFile.construct "a" FileType.directory (.str "K") none =
      .error (.valueError "an object of type FileType.DIRECTORY cannot define a key.")) ∧
    (LazyFile.construct "a" FileType.file (.str "K") (some []) =
      .error (.valueError "an object of type FileType.FILE cannot define any objects.")) ∧
    (LazyFile.construct "a" FileType.directory KeyArg.other none =
      .error (.typeError "key should be None or a string.")) ∧
    ((LFile.mk "a" FileType.directory none []).fileType = .directory →
      (LFile.mk "a" FileType.directory none []).key = none) :=
  ⟨claim_C9.2.1 "a" (.str "K") none (by decide) (by decide),
   claim_C9.2.2.1 "a" (.str "K") [] (by decide),
   claim_C9.2.2.2 "a" FileType.directory none,
   (claim_C9.1 "a" FileType.directory KeyArg.noneVal none
     (.mk "a" FileType.directory none []) rfl).1⟩

/-- C10: when the pack call returns fewer keys than the number of
collected file entries, the run still completes without error; the
regroup resolves only the first `k` entries positionally, and every
entry at position `k` or later still reads its original deferred lazy
reference (the stream at the same position) instead of a store key. -/
theorem claim_C10 (be : List (String × FSTree)) (pack : List JVal → List String)
    (st : ScanState)
    (hscan : get_node_repository_dirpaths be = .ok st)
    (hwf : ∀ e ∈ st.mapping, e.2.wf = true)
    (hshort : (pack (entStreams st.mapping)).length < (entFilepaths st.mapping).length) :
    ∃ res m2, migrate_legacy_repository true (some be) pack = .ok res ∧
      res.returned = some m2 ∧
      ∀ (i : Nat) (hF : i < (entFilepaths st.mapping).length),
        (pack (entStreams st.mapping)).length ≤ i →
        ∃ hS : i < (entStreams st.mapping).length,
          optRead m2 ((entFilepaths st.mapping).get ⟨i, hF⟩) =
            some ((entStreams st.mapping).get ⟨i, hS⟩) := by
  have hnd : (st.mapping.map Prod.fst).Nodup := (scan_inv hscan).1
  obtain ⟨m2, heq, _, hpres, _⟩ := migrate_complete be pack st hscan hwf
  obtain ⟨hlen, hget⟩ := entFilepaths_readable_get st.mapping hnd hwf
  refine ⟨_, m2, heq, rfl, ?_⟩
  intro i hF hki
  have hS : i < (entStreams st.mapping).length := by rw [← hlen]; exact hF
  refine ⟨hS, ?_⟩
  have hnotin : (entFilepaths st.mapping).get ⟨i, hF⟩ ∉
      (entFilepaths st.mapping).take (pack (entStreams st.mapping)).length :=
    nodup_get_not_mem_take (entFilepaths_nodup st.mapping hnd hwf) hki hF
  rw [hpres _ hnotin]
  exact hget i hF hS

theorem claim_C10_witness :
    ∃ res m2, migrate_legacy_repository true (some exBase) (fun _ => ["K1"]) = .ok res ∧
      res.returned = some m2 ∧
      ∀ (i : Nat) (hF : i < (entFilepaths exScanSt.mapping).length),
        ((fun _ : List JVal => ["K1"]) (entStreams exScanSt.mapping)).length ≤ i →
        ∃ hS : i < (entStreams exScanSt.mapping).length,
          optRead m2 ((entFilepaths exScanSt.mapping).get ⟨i, hF⟩) =
            some ((entStreams exScanSt.mapping).get ⟨i, hS⟩) :=
  claim_C10 exBase (fun _ => ["K1"]) exScanSt rfl (by decide) (by decide)

end Aiida
